import Mathlib

/-!
# awsenvsec: aggregation pipeline

A shallow embedding of `cmd/awsenvsec/main.go` and `cmd/awsenvsec/aws.go`.

Go strings are lists of characters, the remote stores are functions handed to
the retrieval code, standard output is the text written to it, and the iteration
order of a Go map is an explicit function chosen by the runtime. The library
functions the program calls (strings, fmt, sort, encoding/json, the SDK
paginators) are modelled next to the code that calls them. The case table of the
Unicode data, which strings.ToUpper consults for the runes above U+007F, comes with
the runtime.
-/

namespace Awsenvsec

/-- A Go string, as the sequence of its characters. -/
abbrev Str := List Char

/-! ## package strings -/

/-- The function unicode.ToUpper: a rune up to U+007F is mapped by the code itself,
`a`..`z` to `A`..`Z` and the rest unchanged; a rune above is looked up in the case table
of the Unicode data, which is not part of the program and is taken as `table`. -/
def toUpperRune (table : Char → Char) (c : Char) : Char :=
  if c.toNat ≤ 127 then Char.toUpper c else table c

/-- The function strings.ToUpper on a valid UTF-8 string: every rune is mapped by
unicode.ToUpper. -/
def ToUpper (table : Char → Char) (s : Str) : Str := s.map (toUpperRune table)

/-- The function strings.LastIndex for a one-character separator: the index of the last
occurrence of `sep` in `s`, or `-1`. The loop of the library runs from the last
position down to the first. -/
def LastIndex (s : Str) (sep : Char) : Int :=
  match s with
  | [] => -1
  | c :: cs =>
    let r := LastIndex cs sep
    if 0 ≤ r then r + 1 else if c = sep then 0 else -1

/-- The slice expression `s[i:]`. -/
def sliceFrom (s : Str) (i : Int) : Str := s.drop i.toNat

/-! ## package fmt: Sprintf with a format and no operands -/

/-- The flag characters read after a percent sign. -/
def isFlag (c : Char) : Bool :=
  c = '#' || c = '0' || c = '+' || c = '-' || c = ' '

/-- The loop `simpleFormat` of doPrintf when no operand is left: it consumes flags and
stops at the first character that is not one. -/
def skipFlags : Str → Str
  | [] => []
  | c :: cs => if isFlag c then skipFlags cs else c :: cs

/-- Decimal digit test of parsenum. -/
def isDigit (c : Char) : Bool := decide ('0' ≤ c) && decide (c ≤ '9')

/-- The loop of parsenum over the window `format[start:end]`; `k` counts the consumed
characters and `wlen` is the length of the whole window, returned as the new position on
overflow. -/
def parsenumLoop (wlen : Nat) : Nat → Bool → Nat → Str → Nat × Bool × Nat
  | num, isnum, k, [] => (num, isnum, k)
  | num, isnum, k, c :: cs =>
    if isDigit c then
      if 1000000 < num then (0, false, wlen)
      else parsenumLoop wlen (num * 10 + (c.toNat - '0'.toNat)) true (k + 1) cs
    else (num, isnum, k)

/-- The function parsenum of package fmt on the window `w = format[start:end]`; the third
component is `newi - start`. -/
def parsenum (w : Str) : Nat × Bool × Nat :=
  match w with
  | [] => (0, false, 0)
  | _ => parsenumLoop w.length 0 false 0 w

/-- Position of the first `]` at index `j` or later, as parseArgNumber searches it. -/
def findClose : Nat → Str → Option Nat
  | _, [] => none
  | j, c :: cs => if c = ']' then some j else findClose (j + 1) cs

/-- The function parseArgNumber: `format` starts with `[`; the result is the width of
the bracketed index and whether it is a well-formed number. -/
def parseArgNumber (format : Str) : Nat × Bool :=
  if format.length < 3 then (1, false)
  else
    match findClose 1 (format.drop 1) with
    | none => (1, false)
    | some j =>
      let inner := (format.take j).drop 1
      let r := parsenum inner
      if !r.2.1 || r.2.2 ≠ inner.length then (j + 1, false) else (j + 1, true)

/-- The method argNumber with no operands: the rest of the format after an explicit
argument index, whether an index was found, and the new value of goodArgNum (an index
can never be in range when there is no operand). -/
def argNumber (format : Str) (good : Bool) : Str × Bool × Bool :=
  match format with
  | '[' :: _ =>
    let r := parseArgNumber format
    (format.drop r.1, r.2, false)
  | _ => (format, false, good)

/-- The width of a verb, read after the flags and the first argument index: the text
written so far, the rest of the format, goodArgNum and afterIndex. A star finds no
operand for the width. -/
def verbWidth (a1 : Str × Bool × Bool) : Str × Str × Bool × Bool :=
  match a1.1 with
  | '*' :: r => ("%!(BADWIDTH)".toList, r, a1.2.2, false)
  | r =>
    let n := parsenum r
    ([], r.drop n.2.2, (if a1.2.1 && n.2.1 then false else a1.2.2), a1.2.1)

/-- The precision of a verb, read after the width. A star finds no operand for the
precision. -/
def verbPrecision (w : Str × Str × Bool × Bool) : Str × Str × Bool × Bool :=
  match w.2.1 with
  | '.' :: r =>
    let good := if w.2.2.2 then false else w.2.2.1
    let a2 := argNumber r good
    match a2.1 with
    | '*' :: r2 => (w.1 ++ "%!(BADPREC)".toList, r2, a2.2.2, false)
    | r2 =>
      let n := parsenum r2
      (w.1, r2.drop n.2.2, a2.2.2, a2.2.1)
  | _ => w

/-- The verb itself, read after the precision and a last argument index: a percent
sign is written as such, any other verb finds no operand (or a bad index), and a format
that ends here has no verb. The second component is the rest of the format, `none` when
the loop is left. -/
def verbFinish (p : Str × Str × Bool × Bool) : Str × Option Str :=
  let a3 : Str × Bool × Bool :=
    if p.2.2.2 then (p.2.1, true, p.2.2.1) else argNumber p.2.1 p.2.2.1
  match a3.1 with
  | [] => (p.1 ++ "%!(NOVERB)".toList, none)
  | verb :: r =>
    if verb = '%' then (p.1 ++ ['%'], some r)
    else if !a3.2.2 then (p.1 ++ "%!".toList ++ [verb] ++ "(BADINDEX)".toList, some r)
    else (p.1 ++ "%!".toList ++ [verb] ++ "(MISSING)".toList, some r)

/-- One pass of the loop body of doPrintf after a percent sign was consumed, with no
operands: flags, argument index, width, precision, verb. The result is the text written
and the rest of the format, `none` when the loop is left. -/
def doVerb (afterPercent : Str) : Str × Option Str :=
  verbFinish (verbPrecision (verbWidth (argNumber (skipFlags afterPercent) true)))

/-- The loop `formatLoop` of doPrintf with no operands; each pass consumes at least one
character, `fuel` bounds the number of passes. -/
def doPrintf : Nat → Str → Str
  | 0, _ => []
  | _ + 1, [] => []
  | fuel + 1, c :: cs =>
    if c ≠ '%' then c :: doPrintf fuel cs
    else
      let r := doVerb cs
      match r.2 with
      | none => r.1
      | some rest => r.1 ++ doPrintf fuel rest

/-- The call `fmt.Sprintf(format)`: the format is interpreted, there is no operand. -/
def Sprintf (format : Str) : Str := doPrintf format.length format

/-! ## key derivation -/

/-- The expression `strings.ToUpper(fmt.Sprintf(name[strings.LastIndex(name, "/")+1:]))`
of main, used for scalar secrets and for parameters. -/
def deriveKey (table : Char → Char) (name : Str) : Str :=
  ToUpper table (Sprintf (sliceFrom name (LastIndex name '/' + 1)))

/-! ## Go maps -/

/-- The assignment `m[k] = v` on a map kept as a list of bindings with distinct keys: an
existing binding is replaced, a new one is added. -/
def mapSet {β : Type} : List (Str × β) → Str → β → List (Str × β)
  | [], k, v => [(k, v)]
  | (k', v') :: m, k, v => if k' = k then (k, v) :: m else (k', v') :: mapSet m k v

/-- The lookup `m[k]` with the comma-ok form. -/
def mapGet? {β : Type} : List (Str × β) → Str → Option β
  | [], _ => none
  | (k', v') :: m, k => if k' = k then some v' else mapGet? m k

/-- The type `map[string]string` of resultsMap. -/
abbrev ResultMap := List (Str × Str)

/-- The expression `resultsMap[k]`: the zero value for an absent key. -/
def mapIndex (m : ResultMap) (k : Str) : Str := (mapGet? m k).getD []

/-! ## package encoding/json

`json.Unmarshal` first checks the syntax of the whole text and then decodes it. The
check of the library is a state machine over the bytes with a stack of open containers,
limited to 10000; here the check and the decoding are one recursive descent over the
characters, with the same limit. -/

/-- A decoded JSON document. Numbers keep their literal; an object keeps its members in
the order of the text, duplicates included, with the names unquoted. -/
inductive JValue where
  | null
  | bool (b : Bool)
  | number (lit : Str)
  | string (s : Str)
  | array (elems : List JValue)
  | object (members : List (Str × JValue))

/-- The function isSpace of the scanner. -/
def isSpace (c : Char) : Bool := c = ' ' || c = '\t' || c = '\r' || c = '\n'

/-- Skipping insignificant white space. -/
def skipSpace : Str → Str
  | [] => []
  | c :: cs => if isSpace c then skipSpace cs else c :: cs

/-- Hexadecimal digit test of the scanner states for `\u` escapes. -/
def isHex (c : Char) : Bool :=
  (decide ('0' ≤ c) && decide (c ≤ '9')) || (decide ('a' ≤ c) && decide (c ≤ 'f')) ||
    (decide ('A' ≤ c) && decide (c ≤ 'F'))

/-- The characters allowed after a backslash other than `u`. -/
def isSimpleEscape (c : Char) : Bool :=
  c = 'b' || c = 'f' || c = 'n' || c = 'r' || c = 't' || c = '\\' || c = '/' || c = '"'

/-- The scanner inside a string literal, after the opening quote: the raw body up to the
closing quote and the text after it. Control characters, unknown escapes and an
unterminated literal are errors. -/
def scanString : Str → Option (Str × Str)
  | [] => none
  | c :: r =>
    if c = '"' then some ([], r)
    else if c = '\\' then
      match r with
      | [] => none
      | e :: r1 =>
        if e = 'u' then
          match r1 with
          | h1 :: h2 :: h3 :: h4 :: r2 =>
            if isHex h1 && isHex h2 && isHex h3 && isHex h4 then
              (scanString r2).map fun p => ('\\' :: 'u' :: h1 :: h2 :: h3 :: h4 :: p.1, p.2)
            else none
          | _ => none
        else if isSimpleEscape e then (scanString r1).map fun p => ('\\' :: e :: p.1, p.2)
        else none
    else if c.toNat < 0x20 then none
    else (scanString r).map fun p => (c :: p.1, p.2)

/-- The longest run of decimal digits at the head of a text, and the rest. -/
def takeDigits : Str → Str × Str
  | [] => ([], [])
  | c :: cs =>
    if isDigit c then (c :: (takeDigits cs).1, (takeDigits cs).2) else ([], c :: cs)

/-- The digits of an exponent, after `e` and the sign: at least one. -/
def scanExpDigits (lit r : Str) : Option (Str × Str) :=
  if (takeDigits r).1 = [] then none else some (lit ++ (takeDigits r).1, (takeDigits r).2)

/-- The exponent part of a number, after the fraction. -/
def scanExp (lit r : Str) : Option (Str × Str) :=
  match r with
  | [] => some (lit, [])
  | e :: r1 =>
    if e = 'e' ∨ e = 'E' then
      match r1 with
      | [] => none
      | sg :: r2 =>
        if sg = '+' ∨ sg = '-' then scanExpDigits (lit ++ [e, sg]) r2
        else scanExpDigits (lit ++ [e]) r1
    else some (lit, e :: r1)

/-- The fraction part of a number, after the integer part: a point and at least one
digit, or nothing. -/
def scanFrac (lit r : Str) : Option (Str × Str) :=
  match r with
  | [] => scanExp lit []
  | c :: r1 =>
    if c = '.' then
      if (takeDigits r1).1 = [] then none
      else scanExp (lit ++ '.' :: (takeDigits r1).1) (takeDigits r1).2
    else scanExp lit (c :: r1)

/-- The integer part of a number: a single zero, or a non-zero digit and more digits. -/
def scanInt (lit r : Str) : Option (Str × Str) :=
  match r with
  | [] => none
  | c :: r1 =>
    if c = '0' then scanFrac (lit ++ [c]) r1
    else if isDigit c then scanFrac (lit ++ c :: (takeDigits r1).1) (takeDigits r1).2
    else none

/-- The scanner on a number: the literal and the text after it. -/
def scanNumber (s : Str) : Option (Str × Str) :=
  match s with
  | [] => none
  | c :: r => if c = '-' then scanInt ['-'] r else scanInt [] (c :: r)

/-- The rest of a literal name: the text after it when it is there. -/
def expectLit : Str → Str → Option Str
  | [], r => some r
  | _ :: _, [] => none
  | l :: ls, c :: r => if c = l then expectLit ls r else none

/-- Value of a hexadecimal digit. -/
def hexVal (c : Char) : Nat :=
  if isDigit c then c.toNat - '0'.toNat
  else if decide ('a' ≤ c) && decide (c ≤ 'f') then c.toNat - 'a'.toNat + 10
  else c.toNat - 'A'.toNat + 10

/-- The function getu4: the code unit of a `\uXXXX` escape. -/
def getu4 (h1 h2 h3 h4 : Char) : Nat :=
  ((hexVal h1 * 16 + hexVal h2) * 16 + hexVal h3) * 16 + hexVal h4

/-- The rune written for a simple escape. -/
def escapeRune (c : Char) : Char :=
  if c = 'b' then Char.ofNat 8
  else if c = 'f' then Char.ofNat 12
  else if c = 'n' then '\n'
  else if c = 'r' then '\r'
  else if c = 't' then '\t'
  else c

/-- First pass of unquote over the raw body of a string literal the scanner accepted:
the code unit of every element, flagged when it was written as a `\u` escape. -/
def unquoteUnits : Str → List (Nat × Bool)
  | [] => []
  | '\\' :: 'u' :: h1 :: h2 :: h3 :: h4 :: r => (getu4 h1 h2 h3 h4, true) :: unquoteUnits r
  | '\\' :: c :: r => ((escapeRune c).toNat, false) :: unquoteUnits r
  | c :: r => (c.toNat, false) :: unquoteUnits r

/-- The test utf16.IsSurrogate. -/
def isSurrogate (n : Nat) : Bool := decide (0xd800 ≤ n) && decide (n < 0xe000)

/-- Second pass of unquote: an escaped high surrogate followed by an escaped low
surrogate is one rune, any other surrogate is replaced by U+FFFD. -/
def combineUnits : List (Nat × Bool) → Str
  | [] => []
  | [(a, _)] => [if isSurrogate a then Char.ofNat 0xfffd else Char.ofNat a]
  | (a, _) :: (b, eb) :: r =>
    if isSurrogate a then
      if eb && decide (a < 0xdc00) && decide (0xdc00 ≤ b) && decide (b < 0xe000) then
        Char.ofNat ((a - 0xd800) * 1024 + (b - 0xdc00) + 0x10000) :: combineUnits r
      else Char.ofNat 0xfffd :: combineUnits ((b, eb) :: r)
    else Char.ofNat a :: combineUnits ((b, eb) :: r)

/-- The function unquote: the text a string literal stands for. -/
def unquote (s : Str) : Str := combineUnits (unquoteUnits s)

/-- The nesting limit of the scanner (maxNestingDepth). -/
def maxNestingDepth : Nat := 10000

mutual
/-- The decoder on one value; `s` starts at the value. `depth` is the number of
containers that may still be opened, `fuel` bounds the recursion. -/
def parseValue : Nat → Nat → Str → Option (JValue × Str)
  | 0, _, _ => none
  | _ + 1, _, [] => none
  | fuel + 1, depth, c :: r =>
    if c = '{' then
      if depth = 0 then none
      else
        match skipSpace r with
        | [] => none
        | c1 :: r1 =>
          if c1 = '}' then some (JValue.object [], r1)
          else (parseMembers fuel (depth - 1) (c1 :: r1)).map fun p => (JValue.object p.1, p.2)
    else if c = '[' then
      if depth = 0 then none
      else
        match skipSpace r with
        | [] => none
        | c1 :: r1 =>
          if c1 = ']' then some (JValue.array [], r1)
          else (parseElements fuel (depth - 1) (c1 :: r1)).map fun p => (JValue.array p.1, p.2)
    else if c = '"' then (scanString r).map fun p => (JValue.string (unquote p.1), p.2)
    else if c = 't' then (expectLit "rue".toList r).map fun r1 => (JValue.bool true, r1)
    else if c = 'f' then (expectLit "alse".toList r).map fun r1 => (JValue.bool false, r1)
    else if c = 'n' then (expectLit "ull".toList r).map fun r1 => (JValue.null, r1)
    else (scanNumber (c :: r)).map fun p => (JValue.number p.1, p.2)
/-- The elements of an array after the first position was reached: a value, then a
comma and more elements, or the closing bracket. -/
def parseElements : Nat → Nat → Str → Option (List JValue × Str)
  | 0, _, _ => none
  | fuel + 1, depth, s =>
    match parseValue fuel depth s with
    | none => none
    | some (v, r) =>
      match skipSpace r with
      | [] => none
      | c1 :: r1 =>
        if c1 = ',' then
          (parseElements fuel depth (skipSpace r1)).map fun p => (v :: p.1, p.2)
        else if c1 = ']' then some ([v], r1)
        else none
/-- The members of an object: a string, a colon, a value, then a comma and more members,
or the closing brace. -/
def parseMembers : Nat → Nat → Str → Option (List (Str × JValue) × Str)
  | 0, _, _ => none
  | _ + 1, _, [] => none
  | fuel + 1, depth, c :: r =>
    if c = '"' then
      match scanString r with
      | none => none
      | some (k, r1) =>
        match skipSpace r1 with
        | [] => none
        | c2 :: r2 =>
          if c2 = ':' then
            match parseValue fuel depth (skipSpace r2) with
            | none => none
            | some (v, r3) =>
              match skipSpace r3 with
              | [] => none
              | c4 :: r4 =>
                if c4 = ',' then
                  (parseMembers fuel depth (skipSpace r4)).map fun p =>
                    ((unquote k, v) :: p.1, p.2)
                else if c4 = '}' then some ([(unquote k, v)], r4)
                else none
          else none
    else none
end

/-- The syntax check and decoding of a whole text: white space, one value, white space. -/
def parseJSON (s : Str) : Option JValue :=
  match parseValue (s.length + 1) maxNestingDepth (skipSpace s) with
  | none => none
  | some (v, r) => if skipSpace r = [] then some v else none

/-- Check if incoming JSON string is valid: `json.Unmarshal` into a json.RawMessage
reports no error exactly when the syntax check passes. -/
def isItJSON (jsonString : Str) : Bool := (parseJSON jsonString).isSome

/-! ## package sort and string comparison -/

/-- The comparison `a < b` of two Go strings: lexicographic, character by character,
which on valid UTF-8 is the order of the bytes. -/
def strLess : Str → Str → Bool
  | [], [] => false
  | [], _ :: _ => true
  | _ :: _, [] => false
  | a :: as, b :: bs => decide (a < b) || (decide (a = b) && strLess as bs)

/-- The order `a <= b` of Go strings. -/
def strLe (a b : Str) : Prop := strLess b a = false

instance strLeDecidable : DecidableRel strLe := fun a b =>
  inferInstanceAs (Decidable (strLess b a = false))

/-- The call `sort.Strings(x)`: the ascending arrangement of `x`. -/
def sortStrings (x : List Str) : List Str := List.insertionSort strLe x

/-! ## package fmt: the verb `%v` on a decoded value -/

/-- The map a JSON object decodes to: a later member replaces an earlier one of the same
name. -/
def mapOfMembers {β : Type} (members : List (Str × β)) : List (Str × β) :=
  members.foldl (fun m p => mapSet m p.1 p.2) []

/-- The bindings of a map in the order fmt prints them: ascending keys. -/
def sortBindings (m : List (Str × Str)) : List (Str × Str) :=
  List.insertionSort (fun p q => strLe p.1 q.1) m

/-- Texts separated by single spaces. -/
def joinSpace : List Str → Str
  | [] => []
  | [x] => x
  | x :: y :: r => x ++ ' ' :: joinSpace (y :: r)

mutual
/-- The call `fmt.Sprintf("%v", v)` on a value decoded into an empty interface.
`formatNumber` gives the text of the float64 read from a number literal and `none` when
the literal is out of range, in which case the decoder stored nil. -/
def sprintValue (formatNumber : Str → Option Str) : JValue → Str
  | JValue.null => "<nil>".toList
  | JValue.bool b => if b then "true".toList else "false".toList
  | JValue.number lit => (formatNumber lit).getD "<nil>".toList
  | JValue.string s => s
  | JValue.array elems => '[' :: joinSpace (sprintElems formatNumber elems) ++ [']']
  | JValue.object members =>
    "map[".toList ++
      joinSpace ((sortBindings (mapOfMembers (sprintMembers formatNumber members))).map
        fun p => p.1 ++ ':' :: p.2) ++ [']']
/-- The elements of a slice, each printed with `%v`. -/
def sprintElems (formatNumber : Str → Option Str) : List JValue → List Str
  | [] => []
  | v :: vs => sprintValue formatNumber v :: sprintElems formatNumber vs
/-- The members of an object, each value printed with `%v`. -/
def sprintMembers (formatNumber : Str → Option Str) : List (Str × JValue) → List (Str × Str)
  | [] => []
  | (k, v) :: m => (k, sprintValue formatNumber v) :: sprintMembers formatNumber m
end

mutual
/-- The first number literal of a document, in the order of the text, that is out of
range for a float64: the decoder saves its error and goes on. -/
def firstRangeError (formatNumber : Str → Option Str) : JValue → Option Str
  | JValue.null => none
  | JValue.bool _ => none
  | JValue.number lit => if (formatNumber lit).isNone then some lit else none
  | JValue.string _ => none
  | JValue.array elems => firstRangeErrorElems formatNumber elems
  | JValue.object members => firstRangeErrorMembers formatNumber members
/-- The first out-of-range literal among the elements of an array. -/
def firstRangeErrorElems (formatNumber : Str → Option Str) : List JValue → Option Str
  | [] => none
  | v :: vs =>
    match firstRangeError formatNumber v with
    | some e => some e
    | none => firstRangeErrorElems formatNumber vs
/-- The first out-of-range literal among the members of an object. -/
def firstRangeErrorMembers (formatNumber : Str → Option Str) :
    List (Str × JValue) → Option Str
  | [] => none
  | (_, v) :: m =>
    match firstRangeError formatNumber v with
    | some e => some e
    | none => firstRangeErrorMembers formatNumber m
end

/-! ## the runtime and the remote stores -/

/-- What the Go runtime and library decide and the program does not: the Unicode case
table, number formatting, the message of a malformed text and the order in which `range`
yields the entries of a map. -/
structure Runtime where
  upperCase : Char → Char
  formatNumber : Str → Option Str
  decodeErrorText : Str → Str
  rangeFields : List (Str × JValue) → List (Str × JValue)
  rangeResults : List (Str × Str) → List (Str × Str)

/-- The call `json.Unmarshal([]byte(s), &secretsMap)` with `secretsMap` a nil
`map[string]interface{}`: the map afterwards and the message of the error returned.
Only an object fills the map; `null` leaves it nil without an error and any other root
is a type error. -/
def Unmarshal (rt : Runtime) (s : Str) : List (Str × JValue) × Option Str :=
  match parseJSON s with
  | none => ([], some (rt.decodeErrorText s))
  | some (JValue.object members) =>
    (mapOfMembers members,
      (firstRangeErrorMembers rt.formatNumber members).map fun lit =>
        "json: cannot unmarshal number ".toList ++ lit ++
          " into Go value of type float64".toList)
  | some JValue.null => ([], none)
  | some (JValue.array _) =>
    ([], some "json: cannot unmarshal array into Go value of type map[string]interface {}".toList)
  | some (JValue.string _) =>
    ([], some "json: cannot unmarshal string into Go value of type map[string]interface {}".toList)
  | some (JValue.number _) =>
    ([], some "json: cannot unmarshal number into Go value of type map[string]interface {}".toList)
  | some (JValue.bool _) =>
    ([], some "json: cannot unmarshal bool into Go value of type map[string]interface {}".toList)

/-- The call `fmt.Println(s)`: the text and a newline. -/
def Println (s : Str) : Str := s ++ ['\n']

/-- One page of a paginated listing. -/
structure Page (α : Type) where
  items : List α
  NextToken : Option Str

structure SMSecrets where
  Name : Str

structure PSSecrets where
  Name : Str
  Value : Str

/-- The three remote calls of aws.go. An error carries its message. Every call is
answered from the same, unchanged store; clients are assumed to be configured. -/
structure Remote where
  GetSecretValue : Str → Except Str Str
  ListSecrets : Str → Nat → Option Str → Except Str (Page Str)
  GetParametersByPath : Str → Bool → Nat → Option Str → Except Str (Page PSSecrets)

/-- The flags read by the pipeline. -/
structure Flags where
  smPathFlag : Str
  psPathFlag : Str
  recursiveFlag : Bool

/-- The state of an SDK paginator. -/
structure Paginator where
  firstPage : Bool
  nextToken : Option Str

/-- The method HasMorePages of the SDK paginators. -/
def Paginator.HasMorePages (p : Paginator) : Bool :=
  p.firstPage ||
    match p.nextToken with
    | some t => decide (t.length ≠ 0)
    | none => false

/-- The method NextPage of the SDK paginators with StopOnDuplicateToken off: the
request carries the stored token, a successful answer replaces it. -/
def Paginator.NextPage {α : Type} (call : Option Str → Except Str (Page α))
    (p : Paginator) : Except Str (Page α) × Paginator :=
  if !p.HasMorePages then (Except.error "no more pages available".toList, p)
  else
    match call p.nextToken with
    | Except.error e => (Except.error e, p)
    | Except.ok result => (Except.ok result, { firstPage := false, nextToken := result.NextToken })

/-! ## aws.go -/

/-- The function decryptSecret: the value and what was printed. A failed call leaves the
named result at its zero value, the empty string. -/
def decryptSecret (remote : Remote) (decryptInput : Str) : Str × Str :=
  match remote.GetSecretValue decryptInput with
  | Except.error err =>
    ([], Println "There was a problem decrypting the secret from AWS Secrets Manager:".toList ++
      Println err)
  | Except.ok result => (result, [])

/-- What a listing function leaves behind: the slice it returns (a nil slice is the
empty list), the value of `pageNum` on return and what was printed. -/
structure Listing (α : Type) where
  output : List α
  pageNum : Nat
  stdout : Str

/-- The loop `for paginator.HasMorePages() && pageNum < 50` shared by the two listing
functions; `left` is `50 - pageNum`. A failed page returns the named result, which was
never assigned, and not the items gathered so far. -/
def pageLoop {ρ α : Type} (call : Option Str → Except Str (Page ρ)) (convert : ρ → α)
    (problem : Str) : Nat → Paginator → Nat → List α → Listing α
  | 0, _, pageNum, results => { output := results, pageNum := pageNum, stdout := [] }
  | left + 1, paginator, pageNum, results =>
    if paginator.HasMorePages then
      match paginator.NextPage call with
      | (Except.error err, _) =>
        { output := [], pageNum := pageNum, stdout := Println problem ++ Println err }
      | (Except.ok result, paginator1) =>
        pageLoop call convert problem left paginator1 (pageNum + 1)
          (results ++ result.items.map convert)
    else { output := results, pageNum := pageNum, stdout := [] }

/-- The function getAllSecrets: names filtered by the path flag, ten per page. -/
def getAllSecrets (remote : Remote) (flags : Flags) : Listing SMSecrets :=
  pageLoop (remote.ListSecrets flags.smPathFlag 10) (fun r => { Name := r })
    "There was a problem decrypting the secret from Secrets Manager:".toList
    50 { firstPage := true, nextToken := none } 0 []

/-- The function getAllParameters: decrypted parameters under the path flag, ten per
page. -/
def getAllParameters (remote : Remote) (flags : Flags) : Listing PSSecrets :=
  pageLoop (remote.GetParametersByPath flags.psPathFlag flags.recursiveFlag 10)
    (fun r => { Name := r.Name, Value := r.Value })
    "There was a problem retrieving decrypted secrets from SSM Paramater Store:".toList
    50 { firstPage := true, nextToken := none } 0 []

/-! ## main.go -/

/-- The body of the loop over the secrets (lines 131 to 148): the map and the standard
output before and after one secret. -/
def secretsBody (rt : Runtime) (remote : Remote) (st : ResultMap × Str) (s : SMSecrets) :
    ResultMap × Str :=
  let secretJson := decryptSecret remote s.Name
  if isItJSON secretJson.1 then
    let u := Unmarshal rt secretJson.1
    let printed : Str :=
      match u.2 with
      | some err => Println err
      | none => []
    ((rt.rangeFields u.1).foldl
        (fun m kv => mapSet m (ToUpper rt.upperCase kv.1) (sprintValue rt.formatNumber kv.2))
        st.1,
      st.2 ++ secretJson.2 ++ printed)
  else
    let k := deriveKey rt.upperCase s.Name
    let v := decryptSecret remote s.Name
    (mapSet st.1 k v.1, st.2 ++ secretJson.2 ++ v.2)

/-- The body of the loop over the parameters (lines 160 to 163). -/
def parametersBody (rt : Runtime) (st : ResultMap × Str) (p : PSSecrets) :
    ResultMap × Str :=
  (mapSet st.1 (deriveKey rt.upperCase p.Name) p.Value, st.2)

/-- The Secrets Manager block of main (lines 126 to 153). -/
def secretsBlock (rt : Runtime) (remote : Remote) (flags : Flags) (st : ResultMap × Str) :
    ResultMap × Str :=
  if 0 < flags.smPathFlag.length then
    let secrets := getAllSecrets remote flags
    if !secrets.output.isEmpty then
      secrets.output.foldl (secretsBody rt remote) (st.1, st.2 ++ secrets.stdout)
    else
      (st.1, st.2 ++ secrets.stdout ++
        Println "There was an issue retrieving secrets from AWS Secrets Manager.".toList)
  else st

/-- The Parameter Store block of main (lines 155 to 167). -/
def parametersBlock (rt : Runtime) (remote : Remote) (flags : Flags)
    (st : ResultMap × Str) : ResultMap × Str :=
  if 0 < flags.psPathFlag.length then
    let parameters := getAllParameters remote flags
    if !parameters.output.isEmpty then
      parameters.output.foldl (parametersBody rt) (st.1, st.2 ++ parameters.stdout)
    else
      (st.1, st.2 ++ parameters.stdout ++
        Println ("There was an issue retrieving secrets from AWS Parameter Store. " ++
          "Please check the path.").toList)
  else st

/-- Lines 123 to 167 of main: resultsMap is created empty, filled from Secrets Manager
and then from Parameter Store. The result is the map and what was printed meanwhile. -/
def collect (rt : Runtime) (remote : Remote) (flags : Flags) : ResultMap × Str :=
  parametersBlock rt remote flags (secretsBlock rt remote flags ([], []))

/-- The case `env` of the output switch (lines 171 to 180): what is printed for a
resultsMap, `date` being the formatted start time. -/
def envOutput (rt : Runtime) (date : Str) (resultsMap : ResultMap) : Str :=
  let resultsMapSorted := sortStrings ((rt.rangeResults resultsMap).map Prod.fst)
  Println ("\n# Environment Variables: ".toList ++ date ++ "\n".toList) ++
    (resultsMapSorted.map fun k =>
      Println (k ++ "=".toList ++ "\"".toList ++ mapIndex resultsMap k ++ "\"".toList)).flatten

/-! ## specification vocabulary and example stores -/

/-- The value of the last parameter of a listing whose derived key is `k`. -/
def lastParameterValue (table : Char → Char) : List PSSecrets → Str → Option Str
  | [], _ => none
  | p :: ps, k =>
    match lastParameterValue table ps k with
    | some v => some v
    | none => if deriveKey table p.Name = k then some p.Value else none

/-- Some lines of the Unicode case table, for the examples: `é` has the upper case `É`,
the long s `ſ` has `S`, the dotless `ı` has `I`; any other rune is left as it is. -/
def exampleTable (c : Char) : Char :=
  if c = 'é' then 'É' else if c = 'ſ' then 'S' else if c = 'ı' then 'I' else c

/-- A runtime for the examples: `range` yields the entries in the order they were
stored and a number prints as its literal, which is what `%v` gives for the short
integers the examples use. -/
def exampleRuntime : Runtime :=
  { upperCase := exampleTable
    formatNumber := fun lit => some lit
    decodeErrorText := fun _ => "invalid character".toList
    rangeFields := fun l => l
    rangeResults := fun l => l }

/-- The flags of the examples: both paths requested, no recursion. -/
def exampleFlags : Flags :=
  { smPathFlag := "product/dev".toList, psPathFlag := "/product/dev".toList,
    recursiveFlag := false }

/-- A store with one secret and no parameter; the secret is named `name` and
GetSecretValue answers `value` for it. -/
def oneSecretStore (name : Str) (value : Except Str Str) : Remote :=
  { GetSecretValue := fun n => if n = name then value else Except.error "not found".toList
    ListSecrets := fun _ _ _ => Except.ok { items := [name], NextToken := none }
    GetParametersByPath := fun _ _ _ _ => Except.ok { items := [], NextToken := none } }

/-- A store with the secret `product/dev/FOO` of value `a` and the parameter
`/product/dev/FOO` of value `b`. -/
def fooStore : Remote :=
  { GetSecretValue := fun _ => Except.ok "a".toList
    ListSecrets := fun _ _ _ =>
      Except.ok { items := ["product/dev/FOO".toList], NextToken := none }
    GetParametersByPath := fun _ _ _ _ =>
      Except.ok { items := [{ Name := "/product/dev/FOO".toList, Value := "b".toList }],
                  NextToken := none } }

/-- The remote call `call`, asked from the token `tok` on, answers the pages `pages` one
after the other without failing: every answer but the last carries a non-empty token
for the next request, the last one carries none. -/
inductive ServesPages {ρ : Type} (call : Option Str → Except Str (Page ρ)) :
    Option Str → List (List ρ) → Prop where
  | last (tok : Option Str) (items : List ρ) (next : Option Str) :
      call tok = Except.ok { items := items, NextToken := next } →
      (next = none ∨ next = some []) → ServesPages call tok [items]
  | more (tok : Option Str) (items : List ρ) (t : Str) (rest : List (List ρ)) :
      call tok = Except.ok { items := items, NextToken := some t } →
      t ≠ [] → ServesPages call (some t) rest → ServesPages call tok (items :: rest)

/-- The remote call `call`, asked from the token `tok` on, answers `k` pages and fails
on the next request with the message `err`. -/
inductive FailsAfter {ρ : Type} (call : Option Str → Except Str (Page ρ)) (err : Str) :
    Option Str → Nat → Prop where
  | now (tok : Option Str) : call tok = Except.error err → FailsAfter call err tok 0
  | later (tok : Option Str) (items : List ρ) (t : Str) (k : Nat) :
      call tok = Except.ok { items := items, NextToken := some t } →
      t ≠ [] → FailsAfter call err (some t) k → FailsAfter call err tok (k + 1)

/-- Pages of ten: every page but the last holds exactly ten items and the last one at
most ten. -/
def PagesOfTen {ρ : Type} (pages : List (List ρ)) : Prop :=
  (∀ p ∈ pages.dropLast, p.length = 10) ∧ (∀ p ∈ pages, p.length ≤ 10)

/-- The pagination cap, for a listing `r` made from the pages `pages`: at most 50 pages
are consumed, the items of the consumed pages are returned in order and nothing is
printed; with more than 500 items exactly the first 500 are returned, and with at most
50 pages all items are. -/
def CappedListing {ρ α : Type} (r : Listing α) (convert : ρ → α) (pages : List (List ρ)) :
    Prop :=
  r.pageNum = min 50 pages.length ∧ r.pageNum ≤ 50 ∧
    r.output = (pages.take 50).flatten.map convert ∧
    r.stdout = [] ∧
    (500 < pages.flatten.length →
      r.output = (pages.flatten.take 500).map convert ∧ r.output.length = 500) ∧
    (pages.length ≤ 50 → r.output = pages.flatten.map convert)

/-- The token a counting store hands out before its page number `k`: none for the first
page, `k` marks afterwards. -/
def pageToken (k : Nat) : Option Str :=
  match k with
  | 0 => none
  | k + 1 => some (List.replicate (k + 1) 'x')

/-- The page number a token of a counting store stands for. -/
def pageOfToken (tok : Option Str) : Nat :=
  match tok with
  | none => 0
  | some t => t.length

/-- The answer of a counting store to a request with the token `tok`: the page, and a
token for the next page unless this one is the last of `total`. -/
def countingPage {ρ : Type} (page : List ρ) (total : Nat) (tok : Option Str) : Page ρ :=
  { items := page
    NextToken :=
      if pageOfToken tok + 1 < total then pageToken (pageOfToken tok + 1) else none }

/-- A store that answers each listing in `total` pages of ten items; the token of a page
counts the pages before it. -/
def countingStore (total : Nat) : Remote :=
  { GetSecretValue := fun _ => Except.ok "v".toList
    ListSecrets := fun _ _ tok =>
      Except.ok (countingPage (List.replicate 10 "a/s".toList) total tok)
    GetParametersByPath := fun _ _ _ tok =>
      Except.ok (countingPage
        (List.replicate 10 { Name := "/a/p".toList, Value := "1".toList }) total tok) }

/-- A store whose listings answer one page and fail on the second request. -/
def brokenStore : Remote :=
  { GetSecretValue := fun _ => Except.ok "v".toList
    ListSecrets := fun _ _ tok =>
      match tok with
      | none => Except.ok { items := ["a/s".toList], NextToken := some "2".toList }
      | some _ => Except.error "Throttled".toList
    GetParametersByPath := fun _ _ _ tok =>
      match tok with
      | none =>
        Except.ok { items := [{ Name := "/a/p".toList, Value := "1".toList }],
                    NextToken := some "2".toList }
      | some _ => Except.error "Throttled".toList }

/-- A map with the two entries `B=2` and `A=1`, stored in that order. -/
def exampleResults : ResultMap :=
  [("B".toList, "2".toList), ("A".toList, "1".toList)]

/-- The lines of a printed text: the pieces that a newline ends, in order, and after
them the piece that follows the last newline when it is not empty. -/
def splitLines : Str → List Str
  | [] => []
  | c :: r =>
    if c = '\n' then [] :: splitLines r
    else
      match splitLines r with
      | [] => [[c]]
      | l :: ls => (c :: l) :: ls

/-- The line `KEY="value"` of an entry of the map. -/
def envLine (e : Str × Str) : Str := e.1 ++ "=\"".toList ++ e.2 ++ "\"".toList

/-- A store with the one secret `product/dev/tls_key`, whose value has two lines. -/
def twoLineStore : Remote :=
  oneSecretStore "product/dev/tls_key".toList (Except.ok "a\nb".toList)

/-- The characters of the error texts doPrintf writes for a verb without operand. -/
def verbNoise : Str := "%!()ABCDEGHIMNOPRSTVWX".toList

/-- The key `k` is the upper-cased name of a top-level field of the object that the
value of some secret of the list decodes to. -/
def FieldKey (rt : Runtime) (remote : Remote) (secrets : List SMSecrets) (k : Str) : Prop :=
  ∃ s ∈ secrets, isItJSON (decryptSecret remote s.Name).1 = true ∧
    ∃ kv ∈ (Unmarshal rt (decryptSecret remote s.Name).1).1, k = ToUpper rt.upperCase kv.1

/-- The keys of the map are upper-case, and those that hold a separator satisfy `P`. -/
def KeysNormal (table : Char → Char) (P : Str → Prop) (m : ResultMap) : Prop :=
  ∀ k ∈ m.map Prod.fst, ToUpper table k = k ∧ ('/' ∈ k → P k)

/-- A runtime whose `range` yields the entries of a map in the reverse of the stored
order. -/
def reverseRuntime : Runtime :=
  { upperCase := exampleTable
    formatNumber := fun lit => some lit
    decodeErrorText := fun _ => "invalid character".toList
    rangeFields := fun l => l.reverse
    rangeResults := fun l => l.reverse }

/-- The text `{"mySecret": "myPassword"}` of the test. -/
def mySecretText : Str := "\x7b\"mySecret\": \"myPassword\"\x7d".toList

/-- The text `{"a/b": "x"}`. -/
def slashFieldText : Str := "\x7b\"a/b\": \"x\"\x7d".toList

/-- The text `{"a": "1", "A": "2"}`. -/
def collidingText : Str := "\x7b\"a\": \"1\", \"A\": \"2\"\x7d".toList

/-- A store with the one secret `product/dev/db` of value `{"mySecret": "myPassword"}`. -/
def mySecretStore : Remote :=
  oneSecretStore "product/dev/db".toList (Except.ok mySecretText)

/-- The text `{"ſ": "1", "s": "2"}`, with the long s as first field name. -/
def longSText : Str := "\x7b\"ſ\": \"1\", \"s\": \"2\"\x7d".toList

/-! ## the JSON grammar -/

/-- The rule `ws`: insignificant white space. -/
def IsWs (w : Str) : Prop := ∀ c ∈ w, isSpace c = true

/-- The rule `1*DIGIT`. -/
def IsDigits (d : Str) : Prop := d ≠ [] ∧ ∀ c ∈ d, isDigit c = true

/-- The rule `int = zero / ( digit1-9 *DIGIT )`. -/
def IsInt (i : Str) : Prop :=
  i = ['0'] ∨ ∃ c ds, i = c :: ds ∧ isDigit c = true ∧ c ≠ '0' ∧ ∀ d ∈ ds, isDigit d = true

/-- The rule `[ frac ]` with `frac = decimal-point 1*DIGIT`. -/
def IsOptFrac (f : Str) : Prop := f = [] ∨ ∃ ds, IsDigits ds ∧ f = '.' :: ds

/-- The rule `[ exp ]` with `exp = e [ minus / plus ] 1*DIGIT`. -/
def IsOptExp (e : Str) : Prop :=
  e = [] ∨ ∃ ch sg ds, (ch = 'e' ∨ ch = 'E') ∧ (sg = [] ∨ sg = ['+'] ∨ sg = ['-']) ∧
    IsDigits ds ∧ e = ch :: (sg ++ ds)

/-- The rule `number = [ minus ] int [ frac ] [ exp ]`. -/
def IsNumber (t : Str) : Prop :=
  ∃ m i f e, (m = [] ∨ m = ['-']) ∧ IsInt i ∧ IsOptFrac f ∧ IsOptExp e ∧ t = m ++ (i ++ (f ++ e))

/-- The rule `*char`: unescaped characters from U+0020 on other than the quotation mark
and the reverse solidus, two-character escapes and `\u` with four hexadecimal digits. -/
inductive IsChars : Str → Prop where
  | nil : IsChars []
  | unescaped (c : Char) (r : Str) :
      c ≠ '"' → c ≠ '\\' → 0x20 ≤ c.toNat → IsChars r → IsChars (c :: r)
  | escape (e : Char) (r : Str) :
      isSimpleEscape e = true → IsChars r → IsChars ('\\' :: e :: r)
  | unicode (h1 h2 h3 h4 : Char) (r : Str) :
      isHex h1 = true → isHex h2 = true → isHex h3 = true → isHex h4 = true → IsChars r →
      IsChars ('\\' :: 'u' :: h1 :: h2 :: h3 :: h4 :: r)

/-- The rule `string = quotation-mark *char quotation-mark`. -/
def IsString (t : Str) : Prop := ∃ body, IsChars body ∧ t = '"' :: (body ++ ['"'])

/-- The three recursive rules of the grammar. -/
inductive Kind where
  | value
  | elements
  | members

/-- The texts of the rules `value`, `value *( ws , ws value )` and
`member *( ws , ws member )` in which containers are nested at most `d` deep. -/
inductive Syn : Kind → Nat → Str → Prop where
  | litNull (d : Nat) : Syn Kind.value d "null".toList
  | litTrue (d : Nat) : Syn Kind.value d "true".toList
  | litFalse (d : Nat) : Syn Kind.value d "false".toList
  | number (d : Nat) (t : Str) : IsNumber t → Syn Kind.value d t
  | string (d : Nat) (t : Str) : IsString t → Syn Kind.value d t
  | emptyArray (d : Nat) (w : Str) : IsWs w → Syn Kind.value (d + 1) ('[' :: (w ++ [']']))
  | array (d : Nat) (w1 e w2 : Str) : IsWs w1 → Syn Kind.elements d e → IsWs w2 →
      Syn Kind.value (d + 1) ('[' :: (w1 ++ (e ++ (w2 ++ [']']))))
  | emptyObject (d : Nat) (w : Str) : IsWs w →
      Syn Kind.value (d + 1) ('\x7b' :: (w ++ ['\x7d']))
  | object (d : Nat) (w1 m w2 : Str) : IsWs w1 → Syn Kind.members d m → IsWs w2 →
      Syn Kind.value (d + 1) ('\x7b' :: (w1 ++ (m ++ (w2 ++ ['\x7d']))))
  | element (d : Nat) (t : Str) : Syn Kind.value d t → Syn Kind.elements d t
  | elements (d : Nat) (t w1 w2 e : Str) : Syn Kind.value d t → IsWs w1 → IsWs w2 →
      Syn Kind.elements d e → Syn Kind.elements d (t ++ (w1 ++ ',' :: (w2 ++ e)))
  | member (d : Nat) (k w1 w2 t : Str) : IsString k → IsWs w1 → IsWs w2 →
      Syn Kind.value d t → Syn Kind.members d (k ++ (w1 ++ ':' :: (w2 ++ t)))
  | members (d : Nat) (k w1 w2 t w3 w4 m : Str) : IsString k → IsWs w1 → IsWs w2 →
      Syn Kind.value d t → IsWs w3 → IsWs w4 → Syn Kind.members d m →
      Syn Kind.members d (k ++ (w1 ++ ':' :: (w2 ++ (t ++ (w3 ++ ',' :: (w4 ++ m))))))

/-- The rule `JSON-text = ws value ws`, with containers nested at most `d` deep. -/
def IsJSONText (d : Nat) (s : Str) : Prop :=
  ∃ w1 t w2, IsWs w1 ∧ Syn Kind.value d t ∧ IsWs w2 ∧ s = w1 ++ (t ++ w2)

/-- A syntactically valid JSON text: `JSON-text` at some nesting depth. -/
def ValidJSON (s : Str) : Prop := ∃ d, IsJSONText d s

/-- The text of `n` opening and `n` closing brackets: arrays nested `n` deep. -/
def nestedArrays (n : Nat) : Str := List.replicate n '[' ++ List.replicate n ']'

/-- The text after a run of digits does not go on with a digit. -/
def DigitsEnd (rest : Str) : Prop := ∀ c r, rest = c :: r → isDigit c = false

/-- The text after a number does not go on with a digit, a point or an exponent mark. -/
def NumEnd (rest : Str) : Prop :=
  ∀ c r, rest = c :: r → isDigit c = false ∧ c ≠ '.' ∧ c ≠ 'e' ∧ c ≠ 'E'

/-- What the decoder does on a text of the grammar: with fuel for the length of the text
and depth for its nesting, it reads exactly the text, whatever follows a value (other
than more of a number) and whatever follows the closing bracket or brace of a list. -/
def Accepts (k : Kind) (d : Nat) (t : Str) : Prop :=
  match k with
  | Kind.value =>
    ∀ fuel depth rest, t.length ≤ fuel → d ≤ depth → NumEnd rest →
      ∃ v, parseValue fuel depth (t ++ rest) = some (v, rest)
  | Kind.elements =>
    ∀ fuel depth w rest, t.length + 1 ≤ fuel → d ≤ depth → IsWs w →
      ∃ vs, parseElements fuel depth (t ++ (w ++ ']' :: rest)) = some (vs, rest)
  | Kind.members =>
    ∀ fuel depth w rest, t.length + 1 ≤ fuel → d ≤ depth → IsWs w →
      ∃ ms, parseMembers fuel depth (t ++ (w ++ '\x7d' :: rest)) = some (ms, rest)

/-- The upper case of a rune above ASCII is itself in upper case: the property of the
Unicode case table that makes upper-casing a text twice the same as once. -/
def UpperStable (table : Char → Char) : Prop :=
  ∀ c, 127 < c.toNat → toUpperRune table (table c) = table c

/-- No rune above ASCII has the path separator as its upper case. -/
def NoSeparator (table : Char → Char) : Prop := ∀ c, 127 < c.toNat → table c ≠ '/'

/-! # Theorems -/

/-! ## maps -/

theorem mapSet_cons_eq {β : Type} (m : List (Str × β)) (k : Str) (v v1 : β) :
    mapSet ((k, v1) :: m) k v = (k, v) :: m := by
  simp only [mapSet, if_true]

theorem mapSet_cons_ne {β : Type} (m : List (Str × β)) (k k1 : Str) (v v1 : β)
    (h : k1 ≠ k) : mapSet ((k1, v1) :: m) k v = (k1, v1) :: mapSet m k v := by
  simp only [mapSet, h, if_false]

theorem mapGet?_cons_eq {β : Type} (m : List (Str × β)) (k : Str) (v1 : β) :
    mapGet? ((k, v1) :: m) k = some v1 := by
  simp only [mapGet?, if_true]

theorem mapGet?_cons_ne {β : Type} (m : List (Str × β)) (k k1 : Str) (v1 : β)
    (h : k1 ≠ k) : mapGet? ((k1, v1) :: m) k = mapGet? m k := by
  simp only [mapGet?, h, if_false]

theorem mapGet?_mapSet_same {β : Type} (m : List (Str × β)) (k : Str) (v : β) :
    mapGet? (mapSet m k v) k = some v := by
  induction m with
  | nil => exact mapGet?_cons_eq [] k v
  | cons p m ih =>
    obtain ⟨k1, v1⟩ := p
    by_cases h : k1 = k
    · subst h
      rw [mapSet_cons_eq, mapGet?_cons_eq]
    · rw [mapSet_cons_ne _ _ _ _ _ h, mapGet?_cons_ne _ _ _ _ h, ih]

theorem mapGet?_mapSet_other {β : Type} (m : List (Str × β)) (k k2 : Str) (v : β)
    (h : k2 ≠ k) : mapGet? (mapSet m k v) k2 = mapGet? m k2 := by
  induction m with
  | nil =>
    show mapGet? [(k, v)] k2 = mapGet? [] k2
    rw [mapGet?_cons_ne _ _ _ _ (Ne.symm h)]
  | cons p m ih =>
    obtain ⟨k1, v1⟩ := p
    by_cases h1 : k1 = k
    · subst h1
      rw [mapSet_cons_eq, mapGet?_cons_ne _ _ _ _ (Ne.symm h),
        mapGet?_cons_ne _ _ _ _ (Ne.symm h)]
    · rw [mapSet_cons_ne _ _ _ _ _ h1]
      by_cases h2 : k1 = k2
      · subst h2
        rw [mapGet?_cons_eq, mapGet?_cons_eq]
      · rw [mapGet?_cons_ne _ _ _ _ h2, mapGet?_cons_ne _ _ _ _ h2, ih]

theorem mem_keys_mapSet {β : Type} (m : List (Str × β)) (k k2 : Str) (v : β) :
    k2 ∈ (mapSet m k v).map Prod.fst ↔ k2 = k ∨ k2 ∈ m.map Prod.fst := by
  induction m with
  | nil =>
    show k2 ∈ [k] ↔ k2 = k ∨ k2 ∈ []
    simp only [List.mem_singleton, List.not_mem_nil, or_false]
  | cons p m ih =>
    obtain ⟨k1, v1⟩ := p
    by_cases h1 : k1 = k
    · subst h1
      rw [mapSet_cons_eq]
      simp only [List.map_cons, List.mem_cons]
      tauto
    · rw [mapSet_cons_ne _ _ _ _ _ h1]
      simp only [List.map_cons, List.mem_cons, ih]
      tauto

theorem nodup_keys_mapSet {β : Type} (m : List (Str × β)) (k : Str) (v : β)
    (h : (m.map Prod.fst).Nodup) : ((mapSet m k v).map Prod.fst).Nodup := by
  induction m with
  | nil =>
    show [k].Nodup
    exact List.nodup_singleton k
  | cons p m ih =>
    obtain ⟨k1, v1⟩ := p
    simp only [List.map_cons, List.nodup_cons] at h
    by_cases h1 : k1 = k
    · subst h1
      rw [mapSet_cons_eq]
      simp only [List.map_cons, List.nodup_cons]
      exact h
    · rw [mapSet_cons_ne _ _ _ _ _ h1]
      simp only [List.map_cons, List.nodup_cons]
      refine ⟨?_, ih h.2⟩
      rw [mem_keys_mapSet]
      rintro (h2 | h2)
      · exact h1 h2
      · exact h.1 h2

theorem mapGet?_isSome_iff {β : Type} (m : List (Str × β)) (k : Str) :
    (mapGet? m k).isSome = true ↔ k ∈ m.map Prod.fst := by
  induction m with
  | nil =>
    show (none : Option β).isSome = true ↔ k ∈ []
    simp only [Option.isSome_none, List.not_mem_nil, Bool.false_eq_true]
  | cons p m ih =>
    obtain ⟨k1, v1⟩ := p
    by_cases h1 : k1 = k
    · subst h1
      rw [mapGet?_cons_eq]
      simp only [Option.isSome_some, List.map_cons, List.mem_cons, true_or]
    · rw [mapGet?_cons_ne _ _ _ _ h1, ih]
      simp only [List.map_cons, List.mem_cons]
      constructor
      · intro h
        exact Or.inr h
      · rintro (h | h)
        · exact absurd h.symm h1
        · exact h

/-! ## the two blocks of main, as far as the map is concerned -/

theorem foldl_parametersBody_fst (rt : Runtime) (ps : List PSSecrets)
    (st : ResultMap × Str) :
    (ps.foldl (parametersBody rt) st).1 =
      ps.foldl (fun m p => mapSet m (deriveKey rt.upperCase p.Name) p.Value) st.1 := by
  induction ps generalizing st with
  | nil => rfl
  | cons p ps ih =>
    simp only [List.foldl_cons]
    rw [ih]
    rfl

theorem parametersBlock_fst (rt : Runtime) (remote : Remote) (flags : Flags)
    (st : ResultMap × Str) :
    (parametersBlock rt remote flags st).1 =
      (if 0 < flags.psPathFlag.length then (getAllParameters remote flags).output
        else []).foldl (fun m p => mapSet m (deriveKey rt.upperCase p.Name) p.Value)
        st.1 := by
  unfold parametersBlock
  by_cases h : 0 < flags.psPathFlag.length
  · simp only [h, if_true]
    cases hout : (getAllParameters remote flags).output with
    | nil => simp only [List.isEmpty_nil, Bool.not_true, Bool.false_eq_true, if_false,
        List.foldl_nil]
    | cons p ps =>
      simp only [List.isEmpty_cons, Bool.not_false, if_true]
      rw [foldl_parametersBody_fst]
  · simp only [h, if_false, List.foldl_nil]

theorem secretsBody_fst_congr (rt : Runtime) (remote : Remote) (st st2 : ResultMap × Str)
    (s : SMSecrets) (h : st.1 = st2.1) :
    (secretsBody rt remote st s).1 = (secretsBody rt remote st2 s).1 := by
  unfold secretsBody
  by_cases hj : isItJSON (decryptSecret remote s.Name).1 = true
  · simp only [hj, if_true, h]
  · simp only [hj, Bool.false_eq_true, if_false, h]

theorem foldl_secretsBody_fst_congr (rt : Runtime) (remote : Remote) (l : List SMSecrets)
    (st st2 : ResultMap × Str) (h : st.1 = st2.1) :
    (l.foldl (secretsBody rt remote) st).1 = (l.foldl (secretsBody rt remote) st2).1 := by
  induction l generalizing st st2 with
  | nil => exact h
  | cons s l ih =>
    simp only [List.foldl_cons]
    exact ih _ _ (secretsBody_fst_congr rt remote st st2 s h)

theorem secretsBlock_fst (rt : Runtime) (remote : Remote) (flags : Flags)
    (st : ResultMap × Str) :
    (secretsBlock rt remote flags st).1 =
      ((if 0 < flags.smPathFlag.length then (getAllSecrets remote flags).output
        else []).foldl (secretsBody rt remote) st).1 := by
  unfold secretsBlock
  by_cases h : 0 < flags.smPathFlag.length
  · simp only [h, if_true]
    cases hout : (getAllSecrets remote flags).output with
    | nil => simp only [List.isEmpty_nil, Bool.not_true, Bool.false_eq_true, if_false,
        List.foldl_nil]
    | cons p ps =>
      simp only [List.isEmpty_cons, Bool.not_false, if_true]
      exact foldl_secretsBody_fst_congr rt remote _ _ _ rfl
  · simp only [h, if_false, List.foldl_nil]

/-- The map after a decryption failure: GetSecretValue fails, decryptSecret returns the
empty string, the empty string is not JSON, and the scalar branch stores it. -/
theorem secretsBody_decrypt_error (rt : Runtime) (remote : Remote) (st : ResultMap × Str)
    (s : SMSecrets) (err : Str) (h : remote.GetSecretValue s.Name = Except.error err) :
    (secretsBody rt remote st s).1 = mapSet st.1 (deriveKey rt.upperCase s.Name) [] := by
  have hd : (decryptSecret remote s.Name).1 = [] := by
    unfold decryptSecret
    rw [h]
  have hj : isItJSON ([] : Str) = false := by decide
  unfold secretsBody
  simp only [hd, hj, Bool.false_eq_true, if_false]

/-! ## evaluations -/

/-- The derived key of a text holding a percent sign, which no name of Secrets Manager
or Parameter Store does: the text after the last separator is handed to Sprintf as a
format and the lone percent sign is expanded. -/
theorem deriveKey_percent_name :
    deriveKey exampleTable "db/rate%".toList = "RATE%!(NOVERB)".toList ∧
      ToUpper exampleTable
          (sliceFrom "db/rate%".toList (LastIndex "db/rate%".toList '/' + 1)) =
        "RATE%".toList := by
  decide

/-- The upper-casing reaches the runes above U+007F: the field `clé` has the key `CLÉ`,
and the fields `ſ` and `s` of one object fall together in the key `S`. -/
theorem toUpper_unicode_fields :
    ToUpper exampleTable "clé".toList = "CLÉ".toList ∧
      (collect exampleRuntime
        (oneSecretStore "product/dev/db".toList (Except.ok longSText))
        exampleFlags).1 = [("S".toList, "2".toList)] := by
  decide

/-- C2: a secret whose value is the JSON number `123456` contributes nothing: the value
passes isItJSON, decoding it into a map fails, and no entry is written, where the claim
has the entry PIN with the value itself. -/
theorem collect_number_secret :
    isItJSON "123456".toList = true ∧
      (collect exampleRuntime
        (oneSecretStore "product/dev/PIN".toList (Except.ok "123456".toList))
        exampleFlags).1 = [] := by
  decide

/-- C7: a secret whose GetSecretValue call fails leaves an entry with the empty value
under the key derived from its name. -/
theorem collect_failed_decrypt :
    (collect exampleRuntime
      (oneSecretStore "product/dev/DB_PASSWORD".toList (Except.error "AccessDenied".toList))
      exampleFlags).1 = [("DB_PASSWORD".toList, [])] := by
  decide

/-! ## C4: parameters are merged last -/

theorem mapGet?_foldl_parameters (table : Char → Char) (ps : List PSSecrets)
    (m : ResultMap) (k : Str) :
    mapGet? (ps.foldl (fun m p => mapSet m (deriveKey table p.Name) p.Value) m) k =
      match lastParameterValue table ps k with
      | some v => some v
      | none => mapGet? m k := by
  induction ps generalizing m with
  | nil => rfl
  | cons p ps ih =>
    simp only [List.foldl_cons]
    rw [ih, lastParameterValue]
    cases hl : lastParameterValue table ps k with
    | some v => rfl
    | none =>
      by_cases hk : deriveKey table p.Name = k
      · subst hk
        simp only [if_true]
        exact mapGet?_mapSet_same m _ _
      · simp only [hk, if_false]
        exact mapGet?_mapSet_other m _ _ _ (Ne.symm hk)

/-- C4: cross-store last-writer-wins. When the parameter path is requested and some
listed parameter yields the key `k`, the final map holds for `k` the value of the last
such parameter, whatever the secrets wrote and in whatever order. -/
theorem collect_parameter_wins (rt : Runtime) (remote : Remote) (flags : Flags) (k v : Str)
    (hps : 0 < flags.psPathFlag.length)
    (hk : lastParameterValue rt.upperCase (getAllParameters remote flags).output k = some v) :
    mapGet? (collect rt remote flags).1 k = some v := by
  unfold collect
  rw [parametersBlock_fst, if_pos hps, mapGet?_foldl_parameters, hk]

theorem collect_parameter_wins_witness :
    mapGet? (collect exampleRuntime fooStore exampleFlags).1 "FOO".toList =
      some "b".toList :=
  collect_parameter_wins exampleRuntime fooStore exampleFlags "FOO".toList "b".toList
    (by decide) (by decide)

/-! ## C6 and C8: the paginated listings -/

theorem pageLoop_done {ρ α : Type} (call : Option Str → Except Str (Page ρ))
    (convert : ρ → α) (problem : Str) (left : Nat) (p : Paginator) (n : Nat)
    (acc : List α) (h : p.HasMorePages = false) :
    pageLoop call convert problem left p n acc =
      { output := acc, pageNum := n, stdout := [] } := by
  cases left with
  | zero => rfl
  | succ left => simp only [pageLoop, h, Bool.false_eq_true, if_false]

theorem hasMorePages_of_token (fp : Bool) (tok : Option Str)
    (h : fp = true ∨ ∃ t, tok = some t ∧ t ≠ []) :
    Paginator.HasMorePages { firstPage := fp, nextToken := tok } = true := by
  unfold Paginator.HasMorePages
  rcases h with h | ⟨t, ht, hne⟩
  · simp only [h, Bool.true_or]
  · subst ht
    have : t.length ≠ 0 := fun h0 => hne (List.length_eq_zero.mp h0)
    simp only [this, ne_eq, not_false_eq_true, decide_True, Bool.or_true]

theorem hasMorePages_exhausted (next : Option Str) (h : next = none ∨ next = some []) :
    Paginator.HasMorePages { firstPage := false, nextToken := next } = false := by
  unfold Paginator.HasMorePages
  rcases h with h | h
  · subst h
    rfl
  · subst h
    rfl

theorem pageLoop_step {ρ α : Type} (call : Option Str → Except Str (Page ρ))
    (convert : ρ → α) (problem : Str) (left : Nat) (fp : Bool) (tok : Option Str) (n : Nat)
    (acc : List α) (items : List ρ) (next : Option Str)
    (hmore : fp = true ∨ ∃ t, tok = some t ∧ t ≠ [])
    (hcall : call tok = Except.ok { items := items, NextToken := next }) :
    pageLoop call convert problem (left + 1) { firstPage := fp, nextToken := tok } n acc =
      pageLoop call convert problem left { firstPage := false, nextToken := next } (n + 1)
        (acc ++ items.map convert) := by
  have hm := hasMorePages_of_token fp tok hmore
  simp only [pageLoop, hm, if_true, Paginator.NextPage, Bool.not_true, Bool.false_eq_true,
    if_false, hcall]

theorem pageLoop_fail {ρ α : Type} (call : Option Str → Except Str (Page ρ))
    (convert : ρ → α) (problem : Str) (left : Nat) (fp : Bool) (tok : Option Str) (n : Nat)
    (acc : List α) (err : Str)
    (hmore : fp = true ∨ ∃ t, tok = some t ∧ t ≠ [])
    (hcall : call tok = Except.error err) :
    pageLoop call convert problem (left + 1) { firstPage := fp, nextToken := tok } n acc =
      { output := [], pageNum := n, stdout := Println problem ++ Println err } := by
  have hm := hasMorePages_of_token fp tok hmore
  simp only [pageLoop, hm, if_true, Paginator.NextPage, Bool.not_true, Bool.false_eq_true,
    if_false, hcall]

theorem pageLoop_serves {ρ α : Type} (call : Option Str → Except Str (Page ρ))
    (convert : ρ → α) (problem : Str) (tok : Option Str) (pages : List (List ρ))
    (h : ServesPages call tok pages) :
    ∀ (left : Nat) (fp : Bool) (n : Nat) (acc : List α),
      (fp = true ∨ ∃ t, tok = some t ∧ t ≠ []) →
      pageLoop call convert problem left { firstPage := fp, nextToken := tok } n acc =
        { output := acc ++ (pages.take left).flatten.map convert,
          pageNum := n + min left pages.length, stdout := [] } := by
  induction h with
  | last tok items next hcall hnext =>
    intro left fp n acc hmore
    cases left with
    | zero => simp [pageLoop]
    | succ left =>
      rw [pageLoop_step call convert problem left fp tok n acc items next hmore hcall,
        pageLoop_done _ _ _ _ _ _ _ (hasMorePages_exhausted next hnext)]
      simp
  | more tok items t rest hcall hne _ ih =>
    intro left fp n acc hmore
    cases left with
    | zero => simp [pageLoop]
    | succ left =>
      rw [pageLoop_step call convert problem left fp tok n acc items (some t) hmore hcall,
        ih left false (n + 1) _ (Or.inr ⟨t, rfl, hne⟩)]
      simp only [List.take_succ_cons, List.flatten_cons, List.map_append, List.append_assoc,
        List.length_cons, Nat.add_min_add_right]
      congr 1
      omega

theorem pageLoop_fails {ρ α : Type} (call : Option Str → Except Str (Page ρ))
    (convert : ρ → α) (problem err : Str) (tok : Option Str) (k : Nat)
    (h : FailsAfter call err tok k) :
    ∀ (left : Nat) (fp : Bool) (n : Nat) (acc : List α),
      (fp = true ∨ ∃ t, tok = some t ∧ t ≠ []) → k < left →
      pageLoop call convert problem left { firstPage := fp, nextToken := tok } n acc =
        { output := [], pageNum := n + k, stdout := Println problem ++ Println err } := by
  induction h with
  | now tok hcall =>
    intro left fp n acc hmore hk
    obtain ⟨left, rfl⟩ : ∃ l, left = l + 1 := ⟨left - 1, by omega⟩
    rw [pageLoop_fail call convert problem left fp tok n acc err hmore hcall]
    rfl
  | later tok items t k hcall hne _ ih =>
    intro left fp n acc hmore hk
    obtain ⟨left, rfl⟩ : ∃ l, left = l + 1 := ⟨left - 1, by omega⟩
    rw [pageLoop_step call convert problem left fp tok n acc items (some t) hmore hcall,
      ih left false (n + 1) _ (Or.inr ⟨t, rfl, hne⟩) (by omega)]
    congr 1
    omega

theorem take_flatten_pagesOfTen {ρ : Type} (pages : List (List ρ)) (h : PagesOfTen pages)
    (n : Nat) : (pages.take n).flatten = pages.flatten.take (10 * n) := by
  induction pages generalizing n with
  | nil => simp
  | cons p rest ih =>
    cases n with
    | zero => simp
    | succ n =>
      cases rest with
      | nil =>
        have hp : p.length ≤ 10 := h.2 p (List.mem_singleton.mpr rfl)
        simp only [List.take_succ_cons, List.take_nil, List.flatten_cons, List.flatten_nil,
          List.append_nil]
        rw [List.take_of_length_le (by omega)]
      | cons q rs =>
        have hp : p.length = 10 := h.1 p (by simp [List.dropLast])
        have hrest : PagesOfTen (q :: rs) := by
          refine ⟨fun x hx => h.1 x ?_, fun x hx => h.2 x (List.mem_cons_of_mem _ hx)⟩
          simp only [List.dropLast_cons₂, List.mem_cons]
          exact Or.inr hx
        simp only [List.take_succ_cons, List.flatten_cons]
        rw [ih hrest n, show 10 * (n + 1) = p.length + 10 * n by omega, List.take_append]
        simp only [List.flatten_cons]

theorem cappedListing_of_serves {ρ α : Type} (call : Option Str → Except Str (Page ρ))
    (convert : ρ → α) (problem : Str) (pages : List (List ρ))
    (h : ServesPages call none pages) (h10 : PagesOfTen pages) :
    CappedListing
      (pageLoop call convert problem 50 { firstPage := true, nextToken := none } 0 [])
      convert pages := by
  rw [pageLoop_serves call convert problem none pages h 50 true 0 [] (Or.inl rfl)]
  refine ⟨by simp, by simp, by simp, rfl, ?_, ?_⟩
  · intro hlen
    have e := take_flatten_pagesOfTen pages h10 50
    simp only [List.nil_append, e, Nat.reduceMul, true_and, List.length_map,
      List.length_take]
    omega
  · intro hlen
    simp only [List.nil_append, List.take_of_length_le hlen]

/-- C6: the pagination cap. For a store that serves a listing in pages of ten without a
failure, getAllSecrets and getAllParameters consume at most 50 pages, return the items
of the consumed pages in arrival order and print nothing; with more than 500 items they
return exactly the first 500, and with at most 50 pages they return every item. -/
theorem listings_capped (remote : Remote) (flags : Flags) :
    (∀ pages : List (List Str),
      ServesPages (remote.ListSecrets flags.smPathFlag 10) none pages → PagesOfTen pages →
      CappedListing (getAllSecrets remote flags) (fun r => ({ Name := r } : SMSecrets)) pages) ∧
    (∀ pages : List (List PSSecrets),
      ServesPages (remote.GetParametersByPath flags.psPathFlag flags.recursiveFlag 10) none
        pages → PagesOfTen pages →
      CappedListing (getAllParameters remote flags)
        (fun r => ({ Name := r.Name, Value := r.Value } : PSSecrets)) pages) :=
  ⟨fun pages h h10 => cappedListing_of_serves _ _ _ pages h h10,
    fun pages h h10 => cappedListing_of_serves _ _ _ pages h h10⟩

theorem pageOfToken_pageToken (k : Nat) : pageOfToken (pageToken k) = k := by
  cases k with
  | zero => rfl
  | succ k => simp only [pageToken, pageOfToken, List.length_replicate]

theorem servesPages_counting {ρ : Type} (call : Option Str → Except Str (Page ρ))
    (page : List ρ) (total : Nat)
    (hcall : ∀ tok, call tok = Except.ok (countingPage page total tok)) :
    ∀ n k, k + n + 1 = total →
      ServesPages call (pageToken k) (List.replicate (n + 1) page) := by
  intro n
  induction n with
  | zero =>
    intro k hk
    refine ServesPages.last _ page none ?_ (Or.inl rfl)
    rw [hcall, countingPage, pageOfToken_pageToken, if_neg (by omega)]
  | succ n ih =>
    intro k hk
    rw [List.replicate_succ]
    refine ServesPages.more _ page (List.replicate (k + 1) 'x') _ ?_ ?_ (ih (k + 1) (by omega))
    · rw [hcall, countingPage, pageOfToken_pageToken, if_pos (by omega)]
      rfl
    · rw [List.replicate_succ]
      exact List.cons_ne_nil _ _

theorem pagesOfTen_replicate {ρ : Type} (page : List ρ) (h : page.length = 10) (n : Nat) :
    PagesOfTen (List.replicate n page) := by
  constructor
  · intro p hp
    rw [List.eq_of_mem_replicate (List.mem_of_mem_dropLast hp)]
    exact h
  · intro p hp
    rw [List.eq_of_mem_replicate hp, h]

theorem listings_capped_witness :
    CappedListing (getAllSecrets (countingStore 51) exampleFlags)
        (fun r => ({ Name := r } : SMSecrets))
        (List.replicate 51 (List.replicate 10 "a/s".toList)) ∧
      CappedListing (getAllParameters (countingStore 51) exampleFlags)
        (fun r => ({ Name := r.Name, Value := r.Value } : PSSecrets))
        (List.replicate 51
          (List.replicate 10 ({ Name := "/a/p".toList, Value := "1".toList } : PSSecrets))) :=
  ⟨(listings_capped (countingStore 51) exampleFlags).1 _
      (servesPages_counting _ _ 51 (fun _ => rfl) 50 0 rfl)
      (pagesOfTen_replicate _ (by decide) 51),
    (listings_capped (countingStore 51) exampleFlags).2 _
      (servesPages_counting _ _ 51 (fun _ => rfl) 50 0 rfl)
      (pagesOfTen_replicate _ (List.length_replicate _ _) 51)⟩

theorem getAllSecrets_fails (remote : Remote) (flags : Flags) (err : Str) (k : Nat)
    (hk : k < 50) (h : FailsAfter (remote.ListSecrets flags.smPathFlag 10) err none k) :
    (getAllSecrets remote flags).output = [] := by
  unfold getAllSecrets
  rw [pageLoop_fails _ _ _ err none k h 50 true 0 [] (Or.inl rfl) hk]

theorem getAllParameters_fails (remote : Remote) (flags : Flags) (err : Str) (k : Nat)
    (hk : k < 50)
    (h : FailsAfter (remote.GetParametersByPath flags.psPathFlag flags.recursiveFlag 10) err
      none k) :
    (getAllParameters remote flags).output = [] := by
  unfold getAllParameters
  rw [pageLoop_fails _ _ _ err none k h 50 true 0 [] (Or.inl rfl) hk]

/-- C8: a listing failure is atomic per store. When a page request of getAllSecrets, or
of getAllParameters, fails after `k < 50` answered pages, the listing returns no item at
all, and the final map is the one of the run in which that store was not requested: the
failing store adds nothing and the other store is merged as usual. -/
theorem listing_failure_atomic (rt : Runtime) (remote : Remote) (flags : Flags) (err : Str)
    (k : Nat) (hk : k < 50) :
    (FailsAfter (remote.ListSecrets flags.smPathFlag 10) err none k →
      (getAllSecrets remote flags).output = [] ∧
      (collect rt remote flags).1 = (collect rt remote { flags with smPathFlag := [] }).1) ∧
    (FailsAfter (remote.GetParametersByPath flags.psPathFlag flags.recursiveFlag 10) err
        none k →
      (getAllParameters remote flags).output = [] ∧
      (collect rt remote flags).1 = (collect rt remote { flags with psPathFlag := [] }).1) := by
  constructor
  · intro h
    have hout := getAllSecrets_fails remote flags err k hk h
    refine ⟨hout, ?_⟩
    unfold collect
    rw [parametersBlock_fst, parametersBlock_fst, secretsBlock_fst, secretsBlock_fst, hout]
    simp only [ite_self, List.foldl_nil, List.length_nil, lt_self_iff_false, if_false]
    rfl
  · intro h
    have hout := getAllParameters_fails remote flags err k hk h
    refine ⟨hout, ?_⟩
    unfold collect
    rw [parametersBlock_fst, parametersBlock_fst, hout]
    simp only [ite_self, List.foldl_nil, List.length_nil, lt_self_iff_false, if_false]
    rfl

theorem listing_failure_atomic_witness :
    ((getAllSecrets brokenStore exampleFlags).output = [] ∧
      (collect exampleRuntime brokenStore exampleFlags).1 =
        (collect exampleRuntime brokenStore { exampleFlags with smPathFlag := [] }).1) ∧
    ((getAllParameters brokenStore exampleFlags).output = [] ∧
      (collect exampleRuntime brokenStore exampleFlags).1 =
        (collect exampleRuntime brokenStore { exampleFlags with psPathFlag := [] }).1) :=
  ⟨(listing_failure_atomic exampleRuntime brokenStore exampleFlags "Throttled".toList 1
      (by decide)).1
      (FailsAfter.later none _ "2".toList 0 rfl (by decide) (FailsAfter.now _ rfl)),
    (listing_failure_atomic exampleRuntime brokenStore exampleFlags "Throttled".toList 1
      (by decide)).2
      (FailsAfter.later none _ "2".toList 0 rfl (by decide) (FailsAfter.now _ rfl))⟩

/-! ## C9: the env output -/

theorem strLess_cons (a b : Char) (as bs : Str) :
    strLess (a :: as) (b :: bs) = true ↔ a < b ∨ (a = b ∧ strLess as bs = true) := by
  simp only [strLess, Bool.or_eq_true, decide_eq_true_eq, Bool.and_eq_true]

theorem strLess_irrefl (a : Str) : strLess a a = false := by
  induction a with
  | nil => rfl
  | cons c cs ih =>
    rw [Bool.eq_false_iff]
    intro h
    rw [strLess_cons] at h
    rcases h with h | ⟨_, h⟩
    · exact lt_irrefl c h
    · rw [ih] at h
      exact Bool.false_ne_true h

theorem strLess_trans (a b c : Str) (hab : strLess a b = true) (hbc : strLess b c = true) :
    strLess a c = true := by
  induction a generalizing b c with
  | nil =>
    cases b with
    | nil => exact absurd hab (by simp [strLess])
    | cons y ys =>
      cases c with
      | nil => exact absurd hbc (by simp [strLess])
      | cons z zs => rfl
  | cons x xs ih =>
    cases b with
    | nil => exact absurd hab (by simp [strLess])
    | cons y ys =>
      cases c with
      | nil => exact absurd hbc (by simp [strLess])
      | cons z zs =>
        rw [strLess_cons] at hab hbc ⊢
        rcases hab with hab | ⟨rfl, hab⟩
        · rcases hbc with hbc | ⟨rfl, _⟩
          · exact Or.inl (lt_trans hab hbc)
          · exact Or.inl hab
        · rcases hbc with hbc | ⟨rfl, hbc⟩
          · exact Or.inl hbc
          · exact Or.inr ⟨rfl, ih ys zs hab hbc⟩

theorem strLess_trichotomy (a b : Str) :
    strLess a b = true ∨ a = b ∨ strLess b a = true := by
  induction a generalizing b with
  | nil =>
    cases b with
    | nil => exact Or.inr (Or.inl rfl)
    | cons y ys => exact Or.inl rfl
  | cons x xs ih =>
    cases b with
    | nil => exact Or.inr (Or.inr rfl)
    | cons y ys =>
      rw [strLess_cons, strLess_cons]
      rcases lt_trichotomy x y with h | rfl | h
      · exact Or.inl (Or.inl h)
      · rcases ih ys with h | rfl | h
        · exact Or.inl (Or.inr ⟨rfl, h⟩)
        · exact Or.inr (Or.inl rfl)
        · exact Or.inr (Or.inr (Or.inr ⟨rfl, h⟩))
      · exact Or.inr (Or.inr (Or.inl h))

theorem strLess_asymm (a b : Str) (h : strLess a b = true) : strLess b a = false := by
  rw [Bool.eq_false_iff]
  intro h2
  have h3 := strLess_trans a b a h h2
  rw [strLess_irrefl] at h3
  exact Bool.false_ne_true h3

instance strLe_total : IsTotal Str strLe :=
  ⟨fun a b => by
    unfold strLe
    rcases strLess_trichotomy a b with h | rfl | h
    · exact Or.inl (strLess_asymm a b h)
    · exact Or.inl (strLess_irrefl a)
    · exact Or.inr (strLess_asymm b a h)⟩

instance strLe_trans : IsTrans Str strLe :=
  ⟨fun a b c hab hbc => by
    unfold strLe at *
    rw [Bool.eq_false_iff]
    intro hca
    rcases strLess_trichotomy a b with h | rfl | h
    · rw [strLess_trans c a b hca h] at hbc
      exact Bool.noConfusion hbc
    · rw [hca] at hbc
      exact Bool.noConfusion hbc
    · rw [h] at hab
      exact Bool.noConfusion hab⟩

theorem sortStrings_perm (x : List Str) : (sortStrings x).Perm x :=
  List.perm_insertionSort strLe x

theorem sortStrings_strict (x : List Str) (h : x.Nodup) :
    (sortStrings x).Pairwise (fun a b => strLess a b = true) := by
  have hs : (sortStrings x).Pairwise strLe := List.sorted_insertionSort strLe x
  have hn : (sortStrings x).Nodup := (sortStrings_perm x).nodup_iff.mpr h
  refine (hs.and hn).imp ?_
  intro a b hab
  rcases strLess_trichotomy a b with h1 | h1 | h1
  · exact h1
  · exact absurd h1 hab.2
  · have := hab.1
    unfold strLe at this
    rw [h1] at this
    exact Bool.noConfusion this

theorem mapGet?_of_mem {β : Type} (m : List (Str × β)) (h : (m.map Prod.fst).Nodup)
    (e : Str × β) (he : e ∈ m) : mapGet? m e.1 = some e.2 := by
  induction m with
  | nil => exact absurd he (List.not_mem_nil e)
  | cons p m ih =>
    obtain ⟨k1, v1⟩ := p
    simp only [List.map_cons, List.nodup_cons] at h
    rcases List.mem_cons.mp he with rfl | hm
    · exact mapGet?_cons_eq m k1 v1
    · have hne : k1 ≠ e.1 := by
        intro hk
        exact h.1 (hk ▸ List.mem_map_of_mem Prod.fst hm)
      rw [mapGet?_cons_ne _ _ _ _ hne]
      exact ih h.2 hm

theorem map_mapIndex_eq (m : ResultMap) (h : (m.map Prod.fst).Nodup) :
    (m.map Prod.fst).map (fun k => (k, mapIndex m k)) = m := by
  rw [List.map_map]
  conv_rhs => rw [← List.map_id m]
  apply List.map_congr_left
  intro e he
  simp only [Function.comp_apply, mapIndex, mapGet?_of_mem m h e he, Option.getD_some, id_eq]

theorem splitLines_newline (r : Str) : splitLines ('\n' :: r) = [] :: splitLines r := by
  conv_lhs => unfold splitLines
  rw [if_pos rfl]

theorem splitLines_char (c : Char) (r : Str) (hc : c ≠ '\n') :
    splitLines (c :: r) =
      match splitLines r with
      | [] => [[c]]
      | l :: ls => (c :: l) :: ls := by
  conv_lhs => unfold splitLines
  rw [if_neg hc]

theorem splitLines_line (l rest : Str) (h : '\n' ∉ l) :
    splitLines (l ++ '\n' :: rest) = l :: splitLines rest := by
  induction l with
  | nil => exact splitLines_newline rest
  | cons c l ih =>
    have hc : c ≠ '\n' := fun e => h (e ▸ List.mem_cons_self _ _)
    show splitLines (c :: (l ++ '\n' :: rest)) = _
    rw [splitLines_char _ _ hc, ih (fun hm => h (List.mem_cons_of_mem _ hm))]

theorem splitLines_records (ls : List Str) (h : ∀ l ∈ ls, '\n' ∉ l) :
    splitLines (ls.map fun l => l ++ ['\n']).flatten = ls := by
  induction ls with
  | nil => rfl
  | cons l ls ih =>
    simp only [List.map_cons, List.flatten_cons, List.append_assoc, List.singleton_append]
    rw [splitLines_line l _ (h l (List.mem_cons_self _ _)),
      ih (fun x hx => h x (List.mem_cons_of_mem _ hx))]

theorem newline_not_mem_envLine (e : Str × Str) (hk : '\n' ∉ e.1) (hv : '\n' ∉ e.2) :
    '\n' ∉ envLine e := by
  unfold envLine
  intro h
  rcases List.mem_append.mp h with h | h
  · rcases List.mem_append.mp h with h | h
    · rcases List.mem_append.mp h with h | h
      · exact hk h
      · exact absurd h (by decide)
    · exact hv h
  · exact absurd h (by decide)

theorem envLine_newline (e : Str × Str) :
    e.1 ++ "=\"".toList ++ e.2 ++ "\"\n".toList = envLine e ++ ['\n'] := by
  unfold envLine
  simp only [String.toList, List.append_assoc, List.cons_append, List.nil_append,
    List.singleton_append]

theorem envOutput_text (rt : Runtime) (date : Str) (resultsMap : ResultMap) :
    envOutput rt date resultsMap =
      "\n# Environment Variables: ".toList ++ date ++ "\n\n".toList ++
        (((sortStrings ((rt.rangeResults resultsMap).map Prod.fst)).map
          fun k => (k, mapIndex resultsMap k)).map
            fun e => e.1 ++ "=\"".toList ++ e.2 ++ "\"\n".toList).flatten := by
  unfold envOutput
  simp only [Println, List.map_map, Function.comp_def, List.append_assoc,
    List.nil_append, String.toList, List.cons_append, List.singleton_append]

theorem splitLines_header (date body : Str) (hdate : '\n' ∉ date) :
    splitLines ("\n# Environment Variables: ".toList ++ date ++ "\n\n".toList ++ body) =
      [] :: ("# Environment Variables: ".toList ++ date) :: [] :: splitLines body := by
  have hh : '\n' ∉ "# Environment Variables: ".toList ++ date := by
    intro h
    rcases List.mem_append.mp h with h | h
    · exact absurd h (by decide)
    · exact hdate h
  have e : "\n# Environment Variables: ".toList ++ date ++ "\n\n".toList ++ body =
      [] ++ '\n' :: (("# Environment Variables: ".toList ++ date) ++
        '\n' :: ([] ++ '\n' :: body)) := by
    simp only [String.toList, List.append_assoc, List.cons_append, List.nil_append,
      List.singleton_append]
  rw [e, splitLines_line [] _ (List.not_mem_nil _), splitLines_line _ _ hh,
    splitLines_line [] _ (List.not_mem_nil _)]

/-- C9, as amended: the env output. For every resultsMap (distinct keys, and `range`
yielding each entry once) the case `env` prints a newline, the text
`# Environment Variables: <date>`, two newlines, and then for every entry of the map, and
for no other, the text `KEY="value"` and a newline, in strictly ascending order of the
keys. When neither the date nor a key nor a value holds a newline, the lines of the
output are an empty line, the header line, an empty line and then exactly one line
`KEY="value"` per entry. An empty map gives the three lines of the header alone. -/
theorem envOutput_lines (rt : Runtime) (date : Str) (resultsMap : ResultMap)
    (hrange : (rt.rangeResults resultsMap).Perm resultsMap)
    (hkeys : (resultsMap.map Prod.fst).Nodup) :
    ∃ entries : List (Str × Str),
      entries.Perm resultsMap ∧
      (entries.map Prod.fst).Pairwise (fun a b => strLess a b = true) ∧
      envOutput rt date resultsMap =
        "\n# Environment Variables: ".toList ++ date ++ "\n\n".toList ++
          (entries.map fun e => e.1 ++ "=\"".toList ++ e.2 ++ "\"\n".toList).flatten ∧
      ('\n' ∉ date → (∀ e ∈ resultsMap, '\n' ∉ e.1 ∧ '\n' ∉ e.2) →
        splitLines (envOutput rt date resultsMap) =
          [] :: ("# Environment Variables: ".toList ++ date) :: [] ::
            entries.map fun e => e.1 ++ "=\"".toList ++ e.2 ++ "\"".toList) ∧
      (resultsMap = [] →
        envOutput rt date resultsMap =
          "\n# Environment Variables: ".toList ++ date ++ "\n\n".toList ∧
        ('\n' ∉ date → splitLines (envOutput rt date resultsMap) =
          [[], "# Environment Variables: ".toList ++ date, []])) := by
  have hp : ((rt.rangeResults resultsMap).map Prod.fst).Perm (resultsMap.map Prod.fst) :=
    hrange.map Prod.fst
  have hsp := (sortStrings_perm ((rt.rangeResults resultsMap).map Prod.fst)).trans hp
  have hperm : ((sortStrings ((rt.rangeResults resultsMap).map Prod.fst)).map
      (fun k => (k, mapIndex resultsMap k))).Perm resultsMap := by
    have := hsp.map (fun k => (k, mapIndex resultsMap k))
    rwa [map_mapIndex_eq resultsMap hkeys] at this
  refine ⟨(sortStrings ((rt.rangeResults resultsMap).map Prod.fst)).map
      (fun k => (k, mapIndex resultsMap k)), hperm, ?_, envOutput_text rt date resultsMap,
      ?_, ?_⟩
  · rw [List.map_map]
    have : (Prod.fst ∘ fun k => (k, mapIndex resultsMap k)) = id := rfl
    rw [this, List.map_id]
    exact sortStrings_strict _ (hp.nodup_iff.mpr hkeys)
  · intro hdate hent
    rw [envOutput_text, splitLines_header _ _ hdate]
    have e : ∀ (es : List (Str × Str)),
        (es.map fun e => e.1 ++ "=\"".toList ++ e.2 ++ "\"\n".toList) =
          (es.map envLine).map fun l => l ++ ['\n'] := by
      intro es
      rw [List.map_map]
      exact List.map_congr_left (fun x _ => envLine_newline x)
    rw [e, splitLines_records]
    · rfl
    · intro l hl
      obtain ⟨x, hx, rfl⟩ := List.mem_map.mp hl
      have hx2 := hent x (hperm.mem_iff.mp hx)
      exact newline_not_mem_envLine x hx2.1 hx2.2
  · intro hempty
    have hnil : sortStrings ((rt.rangeResults resultsMap).map Prod.fst) = [] := by
      have hk : resultsMap.map Prod.fst = [] := by rw [hempty]; rfl
      rw [hk] at hsp
      exact List.Perm.eq_nil hsp
    have htext : envOutput rt date resultsMap =
        "\n# Environment Variables: ".toList ++ date ++ "\n\n".toList := by
      rw [envOutput_text, hnil]
      simp only [List.map_nil, List.flatten_nil, List.append_nil]
    refine ⟨htext, fun hdate => ?_⟩
    have h := splitLines_header date [] hdate
    rw [List.append_nil] at h
    rw [htext, h]
    rfl

theorem envOutput_lines_witness :
    envOutput exampleRuntime "2024-01-02 03:04:05".toList exampleResults =
        "\n# Environment Variables: 2024-01-02 03:04:05\n\nA=\"1\"\nB=\"2\"\n".toList ∧
      splitLines (envOutput exampleRuntime "2024-01-02 03:04:05".toList exampleResults) =
        [[], "# Environment Variables: 2024-01-02 03:04:05".toList, [],
          "A=\"1\"".toList, "B=\"2\"".toList] ∧
      ('\n' ∉ "2024-01-02 03:04:05".toList ∧
        ∀ e ∈ exampleResults, '\n' ∉ e.1 ∧ '\n' ∉ e.2) ∧
      ∃ entries : List (Str × Str),
        entries.Perm exampleResults ∧
        (entries.map Prod.fst).Pairwise (fun a b => strLess a b = true) ∧
        envOutput exampleRuntime "2024-01-02 03:04:05".toList exampleResults =
          "\n# Environment Variables: ".toList ++ "2024-01-02 03:04:05".toList ++
            "\n\n".toList ++
            (entries.map fun e => e.1 ++ "=\"".toList ++ e.2 ++ "\"\n".toList).flatten ∧
        ('\n' ∉ "2024-01-02 03:04:05".toList →
          (∀ e ∈ exampleResults, '\n' ∉ e.1 ∧ '\n' ∉ e.2) →
          splitLines (envOutput exampleRuntime "2024-01-02 03:04:05".toList exampleResults) =
            [] :: ("# Environment Variables: ".toList ++ "2024-01-02 03:04:05".toList) ::
              [] :: entries.map fun e => e.1 ++ "=\"".toList ++ e.2 ++ "\"".toList) ∧
        (exampleResults = [] →
          envOutput exampleRuntime "2024-01-02 03:04:05".toList exampleResults =
            "\n# Environment Variables: ".toList ++ "2024-01-02 03:04:05".toList ++
              "\n\n".toList ∧
          ('\n' ∉ "2024-01-02 03:04:05".toList →
            splitLines (envOutput exampleRuntime "2024-01-02 03:04:05".toList exampleResults) =
              [[], "# Environment Variables: ".toList ++ "2024-01-02 03:04:05".toList, []])) :=
  ⟨by decide, by decide, by decide,
    envOutput_lines exampleRuntime "2024-01-02 03:04:05".toList exampleResults
      (List.Perm.refl _) (by decide)⟩

/-- C9, as stated, fails: the secret `product/dev/tls_key` whose value is the two lines
`a` and `b` gives the map one entry, and the env output has two lines for it after the
header, `TLS_KEY="a` and `b"`, neither of the form `KEY="value"`. -/
theorem envOutput_multiline_value :
    (collect exampleRuntime twoLineStore exampleFlags).1 =
        [("TLS_KEY".toList, "a\nb".toList)] ∧
      splitLines (envOutput exampleRuntime "2024-01-02 03:04:05".toList
          (collect exampleRuntime twoLineStore exampleFlags).1) =
        [[], "# Environment Variables: 2024-01-02 03:04:05".toList, [],
          "TLS_KEY=\"a".toList, "b\"".toList] := by
  decide

/-! ## Sprintf without operands -/

theorem skipFlags_suffix (s : Str) : skipFlags s <:+ s := by
  induction s with
  | nil => exact List.suffix_refl _
  | cons x xs ih =>
    unfold skipFlags
    by_cases hx : isFlag x = true
    · rw [if_pos hx]
      exact ih.trans (List.suffix_cons x xs)
    · rw [if_neg hx]

theorem argNumber_suffix (s : Str) (g : Bool) : (argNumber s g).1 <:+ s := by
  unfold argNumber
  split <;> first | exact List.drop_suffix _ _ | exact List.suffix_refl _

theorem verbWidth_suffix (a : Str × Bool × Bool) : (verbWidth a).2.1 <:+ a.1 := by
  unfold verbWidth
  split
  · rename_i r h
    rw [h]
    exact List.suffix_cons _ _
  · exact List.drop_suffix _ _

theorem verbPrecision_suffix (w : Str × Str × Bool × Bool) :
    (verbPrecision w).2.1 <:+ w.2.1 := by
  unfold verbPrecision
  split
  · rename_i r h
    rw [h]
    simp only
    split
    · rename_i r2 h2
      have := argNumber_suffix r (if w.2.2.2 = true then false else w.2.2.1)
      rw [h2] at this
      exact ((List.suffix_cons _ _).trans this).trans (List.suffix_cons _ _)
    · exact ((List.drop_suffix _ _).trans (argNumber_suffix _ _)).trans (List.suffix_cons _ _)
  · exact List.suffix_refl _

theorem verbFinish_rest (p : Str × Str × Bool × Bool) (rest : Str)
    (h : (verbFinish p).2 = some rest) : rest <:+ p.2.1 ∧ rest.length < p.2.1.length := by
  unfold verbFinish at h
  have hs : (if p.2.2.2 = true then (p.2.1, true, p.2.2.1)
      else argNumber p.2.1 p.2.2.1).1 <:+ p.2.1 := by
    split
    · exact List.suffix_refl _
    · exact argNumber_suffix _ _
  simp only at h
  generalize (if p.2.2.2 = true then (p.2.1, true, p.2.2.1)
      else argNumber p.2.1 p.2.2.1) = a3 at h hs
  obtain ⟨l, b1, b2⟩ := a3
  cases l with
  | nil => exact absurd h (by simp)
  | cons verb r =>
    have hrest : r = rest := by
      simp only at h
      split at h
      · exact Option.some.inj h
      · split at h <;> exact Option.some.inj h
    subst hrest
    refine ⟨(List.suffix_cons _ _).trans hs, ?_⟩
    have := hs.length_le
    simp only [List.length_cons] at this
    omega

theorem doVerb_rest (cs rest : Str) (h : (doVerb cs).2 = some rest) :
    rest <:+ cs ∧ rest.length < cs.length := by
  unfold doVerb at h
  have h1 := verbFinish_rest _ rest h
  have h2 := (verbPrecision_suffix _).trans ((verbWidth_suffix _).trans
    ((argNumber_suffix (skipFlags cs) true).trans (skipFlags_suffix cs)))
  exact ⟨h1.1.trans h2, lt_of_lt_of_le h1.2 h2.length_le⟩
theorem verbWidth_out (a : Str × Bool × Bool) (c : Char) (h : c ∈ (verbWidth a).1) :
    c ∈ verbNoise := by
  unfold verbWidth at h
  split at h
  · have hsub : ∀ x ∈ "%!(BADWIDTH)".toList, x ∈ verbNoise := by decide
    exact hsub c h
  · exact absurd h (List.not_mem_nil c)

theorem verbPrecision_out (w : Str × Str × Bool × Bool) (c : Char)
    (h : c ∈ (verbPrecision w).1) : c ∈ w.1 ∨ c ∈ verbNoise := by
  unfold verbPrecision at h
  split at h
  · simp only at h
    split at h
    · rcases List.mem_append.mp h with h | h
      · exact Or.inl h
      · have hsub : ∀ x ∈ "%!(BADPREC)".toList, x ∈ verbNoise := by decide
        exact Or.inr (hsub c h)
    · exact Or.inl h
  · exact Or.inl h

theorem verbFinish_out (p : Str × Str × Bool × Bool) (c : Char)
    (h : c ∈ (verbFinish p).1) : c ∈ p.1 ∨ c ∈ p.2.1 ∨ c ∈ verbNoise := by
  unfold verbFinish at h
  have hs : (if p.2.2.2 = true then (p.2.1, true, p.2.2.1)
      else argNumber p.2.1 p.2.2.1).1 <:+ p.2.1 := by
    split
    · exact List.suffix_refl _
    · exact argNumber_suffix _ _
  simp only at h
  generalize (if p.2.2.2 = true then (p.2.1, true, p.2.2.1)
      else argNumber p.2.1 p.2.2.1) = a3 at h hs
  obtain ⟨l, b1, b2⟩ := a3
  have n1 : ∀ x ∈ "%!(NOVERB)".toList, x ∈ verbNoise := by decide
  have n2 : ∀ x ∈ "%!".toList, x ∈ verbNoise := by decide
  have n3 : ∀ x ∈ "(BADINDEX)".toList, x ∈ verbNoise := by decide
  have n4 : ∀ x ∈ "(MISSING)".toList, x ∈ verbNoise := by decide
  have n5 : '%' ∈ verbNoise := by decide
  cases l with
  | nil =>
    rcases List.mem_append.mp h with h | h
    · exact Or.inl h
    · exact Or.inr (Or.inr (n1 c h))
  | cons verb r =>
    have hv : verb ∈ p.2.1 := hs.subset (List.mem_cons_self _ _)
    simp only at h
    split at h
    · rcases List.mem_append.mp h with h | h
      · exact Or.inl h
      · rw [List.mem_singleton.mp h]
        exact Or.inr (Or.inr n5)
    · split at h <;>
      · simp only [List.mem_append, List.mem_singleton] at h
        rcases h with ((h | h) | h) | h
        · exact Or.inl h
        · exact Or.inr (Or.inr (n2 c h))
        · exact Or.inr (Or.inl (h ▸ hv))
        · first
          | exact Or.inr (Or.inr (n3 c h))
          | exact Or.inr (Or.inr (n4 c h))

theorem doVerb_out (cs : Str) (c : Char) (h : c ∈ (doVerb cs).1) :
    c ∈ cs ∨ c ∈ verbNoise := by
  unfold doVerb at h
  have hsuf := (verbPrecision_suffix (verbWidth (argNumber (skipFlags cs) true))).trans
    ((verbWidth_suffix _).trans
      ((argNumber_suffix (skipFlags cs) true).trans (skipFlags_suffix cs)))
  rcases verbFinish_out _ c h with h | h | h
  · rcases verbPrecision_out _ c h with h | h
    · exact Or.inr (verbWidth_out _ c h)
    · exact Or.inr h
  · exact Or.inl (hsuf.subset h)
  · exact Or.inr h

theorem doPrintf_out (n : Nat) (s : Str) (c : Char) (h : c ∈ doPrintf n s) :
    c ∈ s ∨ c ∈ verbNoise := by
  induction n generalizing s with
  | zero => exact absurd h (List.not_mem_nil c)
  | succ n ih =>
    cases s with
    | nil => exact absurd h (List.not_mem_nil c)
    | cons x xs =>
      unfold doPrintf at h
      by_cases hx : x ≠ '%'
      · rw [if_pos hx] at h
        rcases List.mem_cons.mp h with h | h
        · exact Or.inl (h ▸ List.mem_cons_self _ _)
        · rcases ih xs h with h | h
          · exact Or.inl (List.mem_cons_of_mem _ h)
          · exact Or.inr h
      · rw [if_neg hx] at h
        simp only at h
        cases hr : (doVerb xs).2 with
        | none =>
          rw [hr] at h
          rcases doVerb_out xs c h with h | h
          · exact Or.inl (List.mem_cons_of_mem _ h)
          · exact Or.inr h
        | some rest =>
          rw [hr] at h
          rcases List.mem_append.mp h with h | h
          · rcases doVerb_out xs c h with h | h
            · exact Or.inl (List.mem_cons_of_mem _ h)
            · exact Or.inr h
          · rcases ih rest h with h | h
            · exact Or.inl (List.mem_cons_of_mem _ ((doVerb_rest xs rest hr).1.subset h))
            · exact Or.inr h

theorem doPrintf_no_percent (n : Nat) (s : Str) (hp : '%' ∉ s) (hn : s.length ≤ n) :
    doPrintf n s = s := by
  induction s generalizing n with
  | nil => cases n <;> rfl
  | cons x xs ih =>
    obtain ⟨n, rfl⟩ : ∃ k, n = k + 1 := ⟨n - 1, by simp only [List.length_cons] at hn; omega⟩
    have hx : x ≠ '%' := fun e => hp (e ▸ List.mem_cons_self _ _)
    unfold doPrintf
    rw [if_pos hx, ih n (fun h => hp (List.mem_cons_of_mem _ h))
      (by simp only [List.length_cons] at hn; omega)]

theorem doPrintf_fuel (n : Nat) (s : Str) (hn : s.length ≤ n) :
    doPrintf n s = doPrintf s.length s := by
  induction n using Nat.strong_induction_on generalizing s with
  | _ n ih =>
    cases s with
    | nil => cases n <;> rfl
    | cons x xs =>
      obtain ⟨n, rfl⟩ : ∃ k, n = k + 1 :=
        ⟨n - 1, by simp only [List.length_cons] at hn; omega⟩
      simp only [List.length_cons] at hn ⊢
      unfold doPrintf
      by_cases hx : x ≠ '%'
      · rw [if_pos hx, if_pos hx, ih n (by omega) xs (by omega)]
      · rw [if_neg hx, if_neg hx]
        simp only
        cases hr : (doVerb xs).2 with
        | none => rfl
        | some rest =>
          have hl := (doVerb_rest xs rest hr).2
          simp only
          rw [ih n (by omega) rest (by omega),
            ih xs.length (by omega) rest (by omega)]

/-! ## the derived key -/

theorem toUpper_ofNat_range (n : Nat) (h1 : 97 ≤ n) (h2 : n ≤ 122) :
    Char.toUpper (Char.ofNat (n - 32)) = Char.ofNat (n - 32) ∧
      Char.ofNat (n - 32) ≠ '/' ∧ (Char.ofNat (n - 32)).toNat ≤ 127 := by
  interval_cases n <;> decide

theorem toUpper_toUpper (c : Char) : Char.toUpper (Char.toUpper c) = Char.toUpper c := by
  by_cases h : c.toNat ≥ 97 ∧ c.toNat ≤ 122
  · have e : Char.toUpper c = Char.ofNat (c.toNat - 32) := by
      simp only [Char.toUpper, h, and_self, if_true]
    rw [e]
    exact (toUpper_ofNat_range c.toNat h.1 h.2).1
  · have e : Char.toUpper c = c := by
      simp only [Char.toUpper, h, if_false]
    rw [e, e]

theorem toUpper_eq_slash (c : Char) (h : Char.toUpper c = '/') : c = '/' := by
  by_cases hr : c.toNat ≥ 97 ∧ c.toNat ≤ 122
  · have e : Char.toUpper c = Char.ofNat (c.toNat - 32) := by
      simp only [Char.toUpper, hr, and_self, if_true]
    rw [e] at h
    exact absurd h (toUpper_ofNat_range c.toNat hr.1 hr.2).2.1
  · have e : Char.toUpper c = c := by
      simp only [Char.toUpper, hr, if_false]
    rw [e] at h
    exact h

theorem toUpper_ascii (c : Char) (h : c.toNat ≤ 127) : (Char.toUpper c).toNat ≤ 127 := by
  by_cases hr : c.toNat ≥ 97 ∧ c.toNat ≤ 122
  · have e : Char.toUpper c = Char.ofNat (c.toNat - 32) := by
      simp only [Char.toUpper, hr, and_self, if_true]
    rw [e]
    exact (toUpper_ofNat_range c.toNat hr.1 hr.2).2.2
  · have e : Char.toUpper c = c := by
      simp only [Char.toUpper, hr, if_false]
    rw [e]
    exact h

theorem toUpperRune_explicit (table : Char → Char) (c : Char) :
    toUpperRune table c =
      if 97 ≤ c.toNat ∧ c.toNat ≤ 122 then Char.ofNat (c.toNat - 32)
      else if c.toNat ≤ 127 then c else table c := by
  unfold toUpperRune Char.toUpper
  by_cases h : 97 ≤ c.toNat ∧ c.toNat ≤ 122
  · have h2 : c.toNat ≤ 127 := by omega
    simp only [h2, if_true, h, ge_iff_le, and_self]
  · by_cases h2 : c.toNat ≤ 127
    · simp only [h2, if_true, h, ge_iff_le, if_false]
    · simp only [h2, if_false, h]

theorem ToUpper_explicit (table : Char → Char) (s : Str) :
    ToUpper table s = s.map fun c =>
      if 97 ≤ c.toNat ∧ c.toNat ≤ 122 then Char.ofNat (c.toNat - 32)
      else if c.toNat ≤ 127 then c else table c := by
  unfold ToUpper
  exact List.map_congr_left (fun c _ => toUpperRune_explicit table c)

theorem toNat_ofNat_upper (n : Nat) (h1 : 97 ≤ n) (h2 : n ≤ 122) :
    (Char.ofNat (n - 32)).toNat = n - 32 := by
  interval_cases n <;> rfl

theorem no_lower_of_fixed (table : Char → Char) (k : Str) (h : ToUpper table k = k) :
    ∀ c ∈ k, ¬ (97 ≤ c.toNat ∧ c.toNat ≤ 122) := by
  induction k with
  | nil =>
    intro c hc
    exact absurd hc (List.not_mem_nil c)
  | cons x xs ih =>
    unfold ToUpper at h
    rw [List.map_cons] at h
    have hx := (List.cons.inj h).1
    have hxs := (List.cons.inj h).2
    intro c hc
    rcases List.mem_cons.mp hc with rfl | hm
    · intro hr
      rw [toUpperRune_explicit, if_pos hr] at hx
      have := toNat_ofNat_upper c.toNat hr.1 hr.2
      rw [hx] at this
      omega
    · exact ih hxs c hm

theorem toUpperRune_idem (table : Char → Char) (hup : UpperStable table) (c : Char) :
    toUpperRune table (toUpperRune table c) = toUpperRune table c := by
  by_cases h : c.toNat ≤ 127
  · have e : toUpperRune table c = Char.toUpper c := by
      simp only [toUpperRune, h, if_true]
    rw [e]
    simp only [toUpperRune, toUpper_ascii c h, if_true, toUpper_toUpper]
  · have e : toUpperRune table c = table c := by
      simp only [toUpperRune, h, if_false]
    rw [e]
    exact hup c (by omega)

theorem toUpperRune_eq_slash (table : Char → Char) (hsep : NoSeparator table) (c : Char)
    (e : toUpperRune table c = '/') : c = '/' := by
  by_cases h : c.toNat ≤ 127
  · simp only [toUpperRune, h, if_true] at e
    exact toUpper_eq_slash c e
  · simp only [toUpperRune, h, if_false] at e
    exact absurd e (hsep c (by omega))

theorem ToUpper_idem (table : Char → Char) (hup : UpperStable table) (s : Str) :
    ToUpper table (ToUpper table s) = ToUpper table s := by
  unfold ToUpper
  rw [List.map_map]
  apply List.map_congr_left
  intro c _
  exact toUpperRune_idem table hup c

theorem slash_mem_ToUpper (table : Char → Char) (hsep : NoSeparator table) (s : Str) :
    '/' ∈ ToUpper table s ↔ '/' ∈ s := by
  unfold ToUpper
  constructor
  · intro h
    obtain ⟨c, hc, he⟩ := List.mem_map.mp h
    rw [toUpperRune_eq_slash table hsep c he] at hc
    exact hc
  · intro h
    refine List.mem_map.mpr ⟨'/', h, ?_⟩
    unfold toUpperRune
    rw [if_pos (by decide)]
    decide

theorem LastIndex_not_mem (s : Str) (c : Char) (h : c ∉ s) : LastIndex s c = -1 := by
  induction s with
  | nil => rfl
  | cons x xs ih =>
    have hx : x ≠ c := fun e => h (e ▸ List.mem_cons_self _ _)
    unfold LastIndex
    simp only [ih (fun hm => h (List.mem_cons_of_mem _ hm)), hx, if_false]
    decide

theorem LastIndex_append (pre suf : Str) (c : Char) (h : c ∉ suf) :
    LastIndex (pre ++ c :: suf) c = pre.length := by
  induction pre with
  | nil =>
    show LastIndex (c :: suf) c = 0
    unfold LastIndex
    simp only [LastIndex_not_mem suf c h, if_true]
    decide
  | cons x xs ih =>
    show LastIndex (x :: (xs ++ c :: suf)) c = _
    unfold LastIndex
    simp only [ih, List.length_cons, Nat.cast_add, Nat.cast_one]
    rw [if_pos (by omega)]

theorem last_separator (s : Str) (c : Char) :
    c ∉ s ∨ ∃ pre suf, s = pre ++ c :: suf ∧ c ∉ suf := by
  induction s with
  | nil => exact Or.inl (List.not_mem_nil c)
  | cons x xs ih =>
    rcases ih with h | ⟨pre, suf, rfl, hs⟩
    · by_cases hx : x = c
      · exact Or.inr ⟨[], xs, by rw [hx]; rfl, h⟩
      · refine Or.inl fun hm => ?_
        rcases List.mem_cons.mp hm with e | e
        · exact hx e.symm
        · exact h e
    · exact Or.inr ⟨x :: pre, suf, rfl, hs⟩

theorem sliceFrom_after_last (pre suf : Str) (c : Char) (h : c ∉ suf) :
    sliceFrom (pre ++ c :: suf) (LastIndex (pre ++ c :: suf) c + 1) = suf := by
  rw [LastIndex_append pre suf c h]
  unfold sliceFrom
  have : ((pre.length : Int) + 1).toNat = pre.length + 1 := by omega
  rw [this, List.drop_append_eq_append_drop]
  simp

theorem sliceFrom_no_separator (s : Str) (c : Char) (h : c ∉ s) :
    sliceFrom s (LastIndex s c + 1) = s := by
  rw [LastIndex_not_mem s c h]
  rfl

theorem slash_not_mem_slice (name : Str) :
    '/' ∉ sliceFrom name (LastIndex name '/' + 1) := by
  rcases last_separator name '/' with h | ⟨pre, suf, rfl, hs⟩
  · rw [sliceFrom_no_separator name '/' h]
    exact h
  · rw [sliceFrom_after_last pre suf '/' hs]
    exact hs

theorem ToUpper_deriveKey (table : Char → Char) (hup : UpperStable table) (name : Str) :
    ToUpper table (deriveKey table name) = deriveKey table name :=
  ToUpper_idem table hup _

theorem slash_not_mem_deriveKey (table : Char → Char) (hsep : NoSeparator table)
    (name : Str) : '/' ∉ deriveKey table name := by
  unfold deriveKey Sprintf
  rw [slash_mem_ToUpper table hsep]
  intro h
  rcases doPrintf_out _ _ _ h with h | h
  · exact slash_not_mem_slice name h
  · exact absurd h (by decide)

/-- For a name whose text after the last separator holds no percent sign the derived
key is that text in upper case, and the whole name in upper case when there is no
separator. -/
theorem deriveKey_plain (table : Char → Char) (name : Str)
    (h : '%' ∉ sliceFrom name (LastIndex name '/' + 1)) :
    deriveKey table name = ToUpper table (sliceFrom name (LastIndex name '/' + 1)) ∧
      (∀ pre suf, name = pre ++ '/' :: suf → '/' ∉ suf →
        deriveKey table name = ToUpper table suf) ∧
      ('/' ∉ name → deriveKey table name = ToUpper table name) := by
  have e : deriveKey table name =
      ToUpper table (sliceFrom name (LastIndex name '/' + 1)) := by
    unfold deriveKey Sprintf
    rw [doPrintf_no_percent _ _ h (le_refl _)]
  refine ⟨e, ?_, ?_⟩
  · intro pre suf hn hs
    rw [e, hn, sliceFrom_after_last pre suf '/' hs]
  · intro hs
    rw [e, sliceFrom_no_separator name '/' hs]

/-! ## C3: the key of an entry name -/

/-- C3: for every entry name, of a scalar secret or of a parameter, that holds no
percent sign (no name of Secrets Manager or Parameter Store does), the key main derives
is the upper-cased text after the last `/` of the name, and the upper-cased whole name
when the name has no `/`: key = ToUpper(name[LastIndex(name, "/")+1:]), where ToUpper
turns `a`..`z` into `A`..`Z`, keeps the other runes up to U+007F and maps the runes above
by the Unicode case table. -/
theorem deriveKey_last_segment (table : Char → Char) (name : Str) (hname : '%' ∉ name) :
    deriveKey table name = ToUpper table (sliceFrom name (LastIndex name '/' + 1)) ∧
      (∀ pre suf, name = pre ++ '/' :: suf → '/' ∉ suf →
        deriveKey table name = ToUpper table suf) ∧
      ('/' ∉ name → deriveKey table name = ToUpper table name) ∧
      (∀ s, ToUpper table s = s.map fun c =>
        if 97 ≤ c.toNat ∧ c.toNat ≤ 122 then Char.ofNat (c.toNat - 32)
        else if c.toNat ≤ 127 then c else table c) :=
  have h := deriveKey_plain table name (fun h => hname (List.mem_of_mem_drop h))
  ⟨h.1, h.2.1, h.2.2, ToUpper_explicit table⟩

theorem deriveKey_last_segment_witness :
    '%' ∉ "product/dev/DB_PASSWORD".toList ∧
      deriveKey exampleTable "product/dev/DB_PASSWORD".toList = "DB_PASSWORD".toList ∧
      deriveKey exampleTable "/product/dev/api_url".toList = "API_URL".toList ∧
      deriveKey exampleTable "db_user".toList = "DB_USER".toList :=
  ⟨by decide,
    ((deriveKey_last_segment exampleTable "product/dev/DB_PASSWORD".toList (by decide)).2.1
      "product/dev".toList "DB_PASSWORD".toList rfl (by decide)).trans (by decide),
    ((deriveKey_last_segment exampleTable "/product/dev/api_url".toList (by decide)).2.1
      "/product/dev".toList "api_url".toList rfl (by decide)).trans (by decide),
    ((deriveKey_last_segment exampleTable "db_user".toList (by decide)).2.2.1
      (by decide)).trans (by decide)⟩

/-! ## C10: the keys of the map -/

theorem foldl_invariant {α β : Type} (f : β → α → β) (I : β → Prop) (l : List α)
    (b : β) (hb : I b) (hstep : ∀ b a, a ∈ l → I b → I (f b a)) : I (l.foldl f b) := by
  induction l generalizing b with
  | nil => exact hb
  | cons a l ih =>
    simp only [List.foldl_cons]
    exact ih (f b a) (hstep b a (List.mem_cons_self _ _) hb)
      (fun b2 a2 ha2 => hstep b2 a2 (List.mem_cons_of_mem _ ha2))

theorem keysNormal_mapSet (table : Char → Char) (P : Str → Prop) (m : ResultMap) (k v : Str)
    (hm : KeysNormal table P m) (hk : ToUpper table k = k) (hP : '/' ∈ k → P k) :
    KeysNormal table P (mapSet m k v) := by
  intro k2 hk2
  rcases (mem_keys_mapSet m k k2 v).mp hk2 with rfl | h
  · exact ⟨hk, hP⟩
  · exact hm k2 h

theorem keysNormal_secretsBody (rt : Runtime) (remote : Remote) (P : Str → Prop)
    (hup : UpperStable rt.upperCase) (hsep : NoSeparator rt.upperCase)
    (hrange : ∀ l, (rt.rangeFields l).Perm l) (st : ResultMap × Str) (s : SMSecrets)
    (hm : KeysNormal rt.upperCase P st.1) (hP : ∀ k, FieldKey rt remote [s] k → P k) :
    KeysNormal rt.upperCase P (secretsBody rt remote st s).1 := by
  unfold secretsBody
  by_cases hj : isItJSON (decryptSecret remote s.Name).1 = true
  · simp only [hj, if_true]
    apply foldl_invariant _ (KeysNormal rt.upperCase P) _ _ hm
    intro m kv hkv hmI
    refine keysNormal_mapSet rt.upperCase P m _ _ hmI (ToUpper_idem _ hup _)
      (fun _ => hP _ ?_)
    exact ⟨s, List.mem_singleton.mpr rfl, hj, kv, (hrange _).subset hkv, rfl⟩
  · simp only [hj, Bool.false_eq_true, if_false]
    exact keysNormal_mapSet rt.upperCase P st.1 _ _ hm (ToUpper_deriveKey _ hup _)
      (fun h => absurd h (slash_not_mem_deriveKey _ hsep _))

theorem keysNormal_parametersBody (rt : Runtime) (P : Str → Prop)
    (hup : UpperStable rt.upperCase) (hsep : NoSeparator rt.upperCase)
    (st : ResultMap × Str) (p : PSSecrets)
    (hm : KeysNormal rt.upperCase P st.1) :
    KeysNormal rt.upperCase P (parametersBody rt st p).1 :=
  keysNormal_mapSet rt.upperCase P st.1 _ _ hm (ToUpper_deriveKey _ hup _)
    (fun h => absurd h (slash_not_mem_deriveKey _ hsep _))

theorem fieldKey_mono (rt : Runtime) (remote : Remote) (l : List SMSecrets) (s : SMSecrets)
    (hs : s ∈ l) (k : Str) (h : FieldKey rt remote [s] k) : FieldKey rt remote l k := by
  obtain ⟨s2, hs2, hj, kv, hkv, e⟩ := h
  rw [List.mem_singleton.mp hs2] at hj hkv
  exact ⟨s, hs, hj, kv, hkv, e⟩

/-- C10, as amended: after every merge step the keys of the map are upper-case
(strings.ToUpper leaves them as they are and they hold none of the letters `a`..`z`, the
Unicode case table being one in which an upper case is itself upper-case and is never
the separator), and a key holds a separator only when it is the upper-cased name of a
top-level field of a structured secret; keys derived from the name of a secret or
parameter hold none. -/
theorem keys_normalised (rt : Runtime) (remote : Remote) (flags : Flags)
    (hup : UpperStable rt.upperCase) (hsep : NoSeparator rt.upperCase)
    (hrange : ∀ l, (rt.rangeFields l).Perm l) :
    (∀ (P : Str → Prop) (st : ResultMap × Str) (s : SMSecrets),
        KeysNormal rt.upperCase P st.1 → (∀ k, FieldKey rt remote [s] k → P k) →
        KeysNormal rt.upperCase P (secretsBody rt remote st s).1) ∧
      (∀ (P : Str → Prop) (st : ResultMap × Str) (p : PSSecrets),
        KeysNormal rt.upperCase P st.1 →
        KeysNormal rt.upperCase P (parametersBody rt st p).1) ∧
      (∀ name, ToUpper rt.upperCase (deriveKey rt.upperCase name) =
          deriveKey rt.upperCase name ∧ '/' ∉ deriveKey rt.upperCase name) ∧
      (∀ (P : Str → Prop) (m : ResultMap), KeysNormal rt.upperCase P m →
        ∀ k ∈ m.map Prod.fst, ∀ c ∈ k, ¬ (97 ≤ c.toNat ∧ c.toNat ≤ 122)) ∧
      KeysNormal rt.upperCase (FieldKey rt remote (getAllSecrets remote flags).output)
        (collect rt remote flags).1 := by
  refine ⟨fun P st s => keysNormal_secretsBody rt remote P hup hsep hrange st s,
    fun P st p => keysNormal_parametersBody rt P hup hsep st p,
    fun name => ⟨ToUpper_deriveKey _ hup name, slash_not_mem_deriveKey _ hsep name⟩,
    fun P m hm k hk => no_lower_of_fixed rt.upperCase k (hm k hk).1, ?_⟩
  unfold collect
  have h1 : KeysNormal rt.upperCase
      (FieldKey rt remote (getAllSecrets remote flags).output)
      (secretsBlock rt remote flags ([], [])).1 := by
    rw [secretsBlock_fst]
    by_cases hf : 0 < flags.smPathFlag.length
    · rw [if_pos hf]
      refine foldl_invariant (secretsBody rt remote)
        (fun st : ResultMap × Str =>
          KeysNormal rt.upperCase
            (FieldKey rt remote (getAllSecrets remote flags).output) st.1)
        _ _ ?_ ?_
      · intro k hk
        exact absurd hk (List.not_mem_nil k)
      · intro st s hs hst
        exact keysNormal_secretsBody rt remote _ hup hsep hrange st s hst
          (fieldKey_mono rt remote _ s hs)
    · rw [if_neg hf]
      intro k hk
      exact absurd hk (List.not_mem_nil k)
  rw [parametersBlock_fst]
  apply foldl_invariant _ (KeysNormal rt.upperCase _) _ _ h1
  intro m p _ hm
  exact keysNormal_mapSet _ _ m _ _ hm (ToUpper_deriveKey _ hup _)
    (fun h => absurd h (slash_not_mem_deriveKey _ hsep _))

theorem exampleTable_stable : UpperStable exampleTable := by
  intro c _
  unfold exampleTable
  by_cases h1 : c = 'é'
  · rw [if_pos h1]
    decide
  · rw [if_neg h1]
    by_cases h2 : c = 'ſ'
    · rw [if_pos h2]
      decide
    · rw [if_neg h2]
      by_cases h3 : c = 'ı'
      · rw [if_pos h3]
        decide
      · rw [if_neg h3]
        by_cases ha : c.toNat ≤ 127
        · simp only [toUpperRune, ha, if_true]
          omega
        · simp only [toUpperRune, ha, if_false, exampleTable, h1, h2, h3]

theorem exampleTable_noSeparator : NoSeparator exampleTable := by
  intro c hc
  unfold exampleTable
  by_cases h1 : c = 'é'
  · rw [if_pos h1]
    decide
  · rw [if_neg h1]
    by_cases h2 : c = 'ſ'
    · rw [if_pos h2]
      decide
    · rw [if_neg h2]
      by_cases h3 : c = 'ı'
      · rw [if_pos h3]
        decide
      · rw [if_neg h3]
        intro e
        rw [e] at hc
        exact absurd hc (by decide)

theorem keys_normalised_witness :
    (collect exampleRuntime mySecretStore exampleFlags).1 =
        [("MYSECRET".toList, "myPassword".toList)] ∧
      KeysNormal exampleTable
        (FieldKey exampleRuntime mySecretStore
          (getAllSecrets mySecretStore exampleFlags).output)
        (collect exampleRuntime mySecretStore exampleFlags).1 :=
  ⟨by decide,
    (keys_normalised exampleRuntime mySecretStore exampleFlags exampleTable_stable
      exampleTable_noSeparator (fun _ => List.Perm.refl _)).2.2.2.2⟩

/-- C10, as stated, fails: the secret `{"a/b": "x"}` puts the key `A/B` in the map. -/
theorem field_key_with_separator :
    (collect exampleRuntime
      (oneSecretStore "product/dev/db".toList (Except.ok slashFieldText))
      exampleFlags).1 = [("A/B".toList, "x".toList)] ∧ '/' ∈ "A/B".toList := by
  decide

/-! ## C1: structured secrets -/

theorem mapSet_fresh {β : Type} (m : List (Str × β)) (k : Str) (v : β)
    (h : k ∉ m.map Prod.fst) : mapSet m k v = m ++ [(k, v)] := by
  induction m with
  | nil => rfl
  | cons p m ih =>
    obtain ⟨k1, v1⟩ := p
    have h1 : k1 ≠ k := fun e => h (e ▸ List.mem_cons_self _ _)
    rw [mapSet_cons_ne _ _ _ _ _ h1, ih (fun hm => h (List.mem_cons_of_mem _ hm))]
    rfl

theorem foldl_mapSet_fresh {β : Type} (l acc : List (Str × β))
    (h : ((acc ++ l).map Prod.fst).Nodup) :
    l.foldl (fun m p => mapSet m p.1 p.2) acc = acc ++ l := by
  induction l generalizing acc with
  | nil => simp
  | cons p l ih =>
    have hp : p.1 ∉ acc.map Prod.fst := by
      intro hm
      rw [List.map_append, List.map_cons] at h
      exact (List.nodup_append.mp h).2.2 hm (List.mem_cons_self _ _)
    simp only [List.foldl_cons]
    rw [mapSet_fresh acc p.1 p.2 hp, ih]
    · simp
    · simpa using h

theorem mapOfMembers_distinct {β : Type} (members : List (Str × β))
    (h : (members.map Prod.fst).Nodup) : mapOfMembers members = members := by
  unfold mapOfMembers
  rw [foldl_mapSet_fresh members [] (by simpa using h)]
  rfl

theorem mapGet?_foldl_absent {β : Type} (l m : List (Str × β)) (k : Str)
    (h : k ∉ l.map Prod.fst) :
    mapGet? (l.foldl (fun m p => mapSet m p.1 p.2) m) k = mapGet? m k := by
  induction l generalizing m with
  | nil => rfl
  | cons p l ih =>
    simp only [List.foldl_cons]
    rw [ih _ (fun hm => h (List.mem_cons_of_mem _ hm))]
    exact mapGet?_mapSet_other m p.1 k p.2 (fun e => h (e ▸ List.mem_cons_self _ _))

theorem mapGet?_foldl_present {β : Type} (l m : List (Str × β)) (h : (l.map Prod.fst).Nodup)
    (e : Str × β) (he : e ∈ l) :
    mapGet? (l.foldl (fun m p => mapSet m p.1 p.2) m) e.1 = some e.2 := by
  induction l generalizing m with
  | nil => exact absurd he (List.not_mem_nil e)
  | cons p l ih =>
    simp only [List.map_cons, List.nodup_cons] at h
    simp only [List.foldl_cons]
    rcases List.mem_cons.mp he with rfl | hm
    · rw [mapGet?_foldl_absent l _ e.1 h.1]
      exact mapGet?_mapSet_same m e.1 e.2
    · exact ih _ h.2 hm

theorem mem_keys_foldl {β : Type} (l m : List (Str × β)) (k : Str) :
    k ∈ (l.foldl (fun m p => mapSet m p.1 p.2) m).map Prod.fst ↔
      k ∈ m.map Prod.fst ∨ k ∈ l.map Prod.fst := by
  induction l generalizing m with
  | nil =>
    simp only [List.foldl_nil, List.map_nil, List.not_mem_nil, or_false]
  | cons p l ih =>
    simp only [List.foldl_cons, List.map_cons, List.mem_cons]
    rw [ih, mem_keys_mapSet]
    tauto

theorem secretsBody_structured (rt : Runtime) (remote : Remote) (st : ResultMap × Str)
    (s : SMSecrets) (text : Str) (members : List (Str × JValue))
    (hval : remote.GetSecretValue s.Name = Except.ok text)
    (hparse : parseJSON text = some (JValue.object members))
    (hnames : (members.map Prod.fst).Nodup) :
    (secretsBody rt remote st s).1 =
      ((rt.rangeFields members).map
        fun kv => (ToUpper rt.upperCase kv.1, sprintValue rt.formatNumber kv.2)).foldl
        (fun m p => mapSet m p.1 p.2) st.1 := by
  have hd : decryptSecret remote s.Name = (text, []) := by
    unfold decryptSecret
    rw [hval]
  have hj : isItJSON text = true := by
    unfold isItJSON
    rw [hparse]
    rfl
  have hu : (Unmarshal rt text).1 = members := by
    unfold Unmarshal
    rw [hparse]
    exact mapOfMembers_distinct members hnames
  unfold secretsBody
  simp only [hd, hj, if_true, hu, List.foldl_map]

/-- C1, as amended: a secret whose value decodes to a JSON object whose top-level field
names stay distinct under strings.ToUpper (the Unicode upper-casing of Go) is structured.
Every field `n: v` leaves the entry `ToUpper n -> Sprintf("%v", v)` in the map, no other
key is touched, the name of the secret plays no part, and on an empty map the entries
are as many as the fields. -/
theorem structured_secret (rt : Runtime) (remote : Remote) (st : ResultMap × Str)
    (s : SMSecrets) (text : Str) (members : List (Str × JValue))
    (hrange : ∀ l, (rt.rangeFields l).Perm l)
    (hval : remote.GetSecretValue s.Name = Except.ok text)
    (hparse : parseJSON text = some (JValue.object members))
    (hdistinct : (members.map fun kv => ToUpper rt.upperCase kv.1).Nodup) :
    isItJSON text = true ∧
      (∀ kv ∈ members, mapGet? (secretsBody rt remote st s).1 (ToUpper rt.upperCase kv.1) =
        some (sprintValue rt.formatNumber kv.2)) ∧
      (∀ k, (∀ kv ∈ members, k ≠ ToUpper rt.upperCase kv.1) →
        mapGet? (secretsBody rt remote st s).1 k = mapGet? st.1 k) ∧
      (st.1 = [] → (secretsBody rt remote st s).1.length = members.length) := by
  have hnames : (members.map Prod.fst).Nodup := by
    have e : (members.map fun kv => ToUpper rt.upperCase kv.1) =
        (members.map Prod.fst).map (ToUpper rt.upperCase) := by
      rw [List.map_map]
      rfl
    rw [e] at hdistinct
    exact List.Nodup.of_map (ToUpper rt.upperCase) hdistinct
  have hbody := secretsBody_structured rt remote st s text members hval hparse hnames
  have hkeys : (((rt.rangeFields members).map
      fun kv => (ToUpper rt.upperCase kv.1, sprintValue rt.formatNumber kv.2)).map
        Prod.fst).Nodup := by
    rw [List.map_map]
    exact ((hrange members).map _).nodup_iff.mpr hdistinct
  refine ⟨?_, ?_, ?_, ?_⟩
  · unfold isItJSON
    rw [hparse]
    rfl
  · intro kv hkv
    rw [hbody]
    exact mapGet?_foldl_present _ st.1 hkeys
      (ToUpper rt.upperCase kv.1, sprintValue rt.formatNumber kv.2)
      (List.mem_map.mpr ⟨kv, (hrange members).mem_iff.mpr hkv, rfl⟩)
  · intro k hk
    rw [hbody]
    apply mapGet?_foldl_absent
    rw [List.map_map]
    intro hm
    obtain ⟨kv, hkv, e⟩ := List.mem_map.mp hm
    exact hk kv ((hrange members).mem_iff.mp hkv) e.symm
  · intro hst
    rw [hbody, hst, foldl_mapSet_fresh _ [] (by simpa using hkeys)]
    simp only [List.nil_append, List.length_map]
    exact (hrange members).length_eq

theorem structured_secret_witness :
    (secretsBody exampleRuntime
        (oneSecretStore "product/dev/db".toList (Except.ok mySecretText))
        ([], []) { Name := "product/dev/db".toList }).1 =
        [("MYSECRET".toList, "myPassword".toList)] ∧
      isItJSON mySecretText = true ∧
      (∀ kv ∈ [("mySecret".toList, JValue.string "myPassword".toList)],
        mapGet? (secretsBody exampleRuntime
            (oneSecretStore "product/dev/db".toList
              (Except.ok mySecretText))
            ([], []) { Name := "product/dev/db".toList }).1
            (ToUpper exampleRuntime.upperCase kv.1) =
          some (sprintValue exampleRuntime.formatNumber kv.2)) ∧
      (∀ k, (∀ kv ∈ [("mySecret".toList, JValue.string "myPassword".toList)],
          k ≠ ToUpper exampleRuntime.upperCase kv.1) →
        mapGet? (secretsBody exampleRuntime
            (oneSecretStore "product/dev/db".toList
              (Except.ok mySecretText))
            ([], []) { Name := "product/dev/db".toList }).1 k = mapGet? [] k) ∧
      (([] : ResultMap) = [] →
        (secretsBody exampleRuntime
            (oneSecretStore "product/dev/db".toList
              (Except.ok mySecretText))
            ([], []) { Name := "product/dev/db".toList }).1.length = 1) :=
  ⟨by decide,
    structured_secret exampleRuntime
      (oneSecretStore "product/dev/db".toList
        (Except.ok mySecretText))
      ([], []) { Name := "product/dev/db".toList } mySecretText
      [("mySecret".toList, JValue.string "myPassword".toList)]
      (fun _ => List.Perm.refl _) rfl rfl (by decide)⟩

/-- C1, as stated, fails: the object `{"a": "1", "A": "2"}` has two top-level fields
whose names fall together in upper case. The map gets one entry, and whichever order
`range` takes, one of the two fields is not in it. -/
theorem colliding_fields :
    (collect exampleRuntime
        (oneSecretStore "product/dev/db".toList (Except.ok collidingText))
        exampleFlags).1 = [("A".toList, "2".toList)] ∧
      (collect reverseRuntime
        (oneSecretStore "product/dev/db".toList (Except.ok collidingText))
        exampleFlags).1 = [("A".toList, "1".toList)] := by
  decide

/-! ## C5: the scanner and the grammar -/

theorem skipSpace_cons_of_not_space (c : Char) (r : Str) (h : isSpace c = false) :
    skipSpace (c :: r) = c :: r := by
  simp only [skipSpace, h, Bool.false_eq_true, if_false]

theorem skipSpace_ws (w s : Str) (hw : IsWs w) : skipSpace (w ++ s) = skipSpace s := by
  induction w with
  | nil => rfl
  | cons c w ih =>
    have hc : isSpace c = true := hw c (List.mem_cons_self _ _)
    show skipSpace (c :: (w ++ s)) = _
    simp only [skipSpace, hc, if_true]
    exact ih (fun x hx => hw x (List.mem_cons_of_mem _ hx))

theorem skipSpace_spec (s : Str) : ∃ w, IsWs w ∧ s = w ++ skipSpace s := by
  induction s with
  | nil => exact ⟨[], fun c hc => absurd hc (List.not_mem_nil c), rfl⟩
  | cons c r ih =>
    by_cases hc : isSpace c = true
    · obtain ⟨w, hw, e⟩ := ih
      refine ⟨c :: w, ?_, ?_⟩
      · intro x hx
        rcases List.mem_cons.mp hx with rfl | hx
        · exact hc
        · exact hw x hx
      · simp only [skipSpace, hc, if_true, List.cons_append]
        rw [← e]
    · refine ⟨[], fun x hx => absurd hx (List.not_mem_nil x), ?_⟩
      simp only [skipSpace, hc, Bool.false_eq_true, if_false, List.nil_append]

theorem skipSpace_head (s : Str) (c : Char) (r : Str) (h : skipSpace s = c :: r) :
    isSpace c = false := by
  induction s with
  | nil => exact absurd h (by simp [skipSpace])
  | cons x xs ih =>
    by_cases hx : isSpace x = true
    · simp only [skipSpace, hx, if_true] at h
      exact ih h
    · simp only [skipSpace, hx, Bool.false_eq_true, if_false, List.cons.injEq] at h
      rw [← h.1]
      simpa using hx

theorem takeDigits_append (ds rest : Str) (hd : ∀ c ∈ ds, isDigit c = true)
    (hr : DigitsEnd rest) : takeDigits (ds ++ rest) = (ds, rest) := by
  induction ds with
  | nil =>
    cases rest with
    | nil => rfl
    | cons c r =>
      show takeDigits (c :: r) = _
      simp only [takeDigits, hr c r rfl, Bool.false_eq_true, if_false]
  | cons d ds ih =>
    show takeDigits (d :: (ds ++ rest)) = _
    simp only [takeDigits, hd d (List.mem_cons_self _ _), if_true,
      ih (fun c hc => hd c (List.mem_cons_of_mem _ hc))]

theorem takeDigits_spec (s : Str) :
    s = (takeDigits s).1 ++ (takeDigits s).2 ∧ (∀ c ∈ (takeDigits s).1, isDigit c = true) := by
  induction s with
  | nil => exact ⟨rfl, fun c hc => absurd hc (List.not_mem_nil c)⟩
  | cons x xs ih =>
    by_cases hx : isDigit x = true
    · simp only [takeDigits, hx, if_true, List.cons_append, List.mem_cons]
      refine ⟨by rw [← ih.1], ?_⟩
      rintro c (rfl | hc)
      · exact hx
      · exact ih.2 c hc
    · simp only [takeDigits, hx, Bool.false_eq_true, if_false, List.nil_append,
        List.not_mem_nil, false_imp_iff, implies_true, and_self]
theorem scanExpDigits_sound (lit r l rest : Str) (h : scanExpDigits lit r = some (l, rest)) :
    ∃ ds, IsDigits ds ∧ l = lit ++ ds ∧ r = ds ++ rest := by
  unfold scanExpDigits at h
  by_cases hd : (takeDigits r).1 = []
  · rw [if_pos hd] at h
    exact absurd h (by simp)
  · rw [if_neg hd] at h
    simp only [Option.some.injEq, Prod.mk.injEq] at h
    refine ⟨(takeDigits r).1, ⟨hd, (takeDigits_spec r).2⟩, h.1.symm, ?_⟩
    rw [← h.2]
    exact (takeDigits_spec r).1

theorem scanExp_sound (lit r l rest : Str) (h : scanExp lit r = some (l, rest)) :
    ∃ e, IsOptExp e ∧ l = lit ++ e ∧ r = e ++ rest := by
  unfold scanExp at h
  cases r with
  | nil =>
    simp only [Option.some.injEq, Prod.mk.injEq] at h
    exact ⟨[], Or.inl rfl, by rw [← h.1, List.append_nil], by rw [← h.2]; rfl⟩
  | cons c r1 =>
    simp only at h
    by_cases hc : c = 'e' ∨ c = 'E'
    · rw [if_pos hc] at h
      cases r1 with
      | nil => exact absurd h (by simp)
      | cons sg r2 =>
        simp only at h
        by_cases hs : sg = '+' ∨ sg = '-'
        · rw [if_pos hs] at h
          obtain ⟨ds, hds, e1, e2⟩ := scanExpDigits_sound _ _ _ _ h
          refine ⟨c :: ([sg] ++ ds), Or.inr ⟨c, [sg], ds, hc, ?_, hds, rfl⟩, ?_, ?_⟩
          · rcases hs with rfl | rfl
            · exact Or.inr (Or.inl rfl)
            · exact Or.inr (Or.inr rfl)
          · rw [e1]
            simp
          · rw [e2]
            simp
        · rw [if_neg hs] at h
          obtain ⟨ds, hds, e1, e2⟩ := scanExpDigits_sound _ _ _ _ h
          refine ⟨c :: ([] ++ ds), Or.inr ⟨c, [], ds, hc, Or.inl rfl, hds, rfl⟩, ?_, ?_⟩
          · rw [e1]
            simp
          · rw [e2]
            simp
    · rw [if_neg hc] at h
      simp only [Option.some.injEq, Prod.mk.injEq] at h
      exact ⟨[], Or.inl rfl, by rw [← h.1, List.append_nil], by rw [← h.2]; rfl⟩

theorem scanFrac_sound (lit r l rest : Str) (h : scanFrac lit r = some (l, rest)) :
    ∃ f e, IsOptFrac f ∧ IsOptExp e ∧ l = lit ++ (f ++ e) ∧ r = f ++ (e ++ rest) := by
  unfold scanFrac at h
  cases r with
  | nil =>
    simp only at h
    obtain ⟨e, he, e1, e2⟩ := scanExp_sound _ _ _ _ h
    exact ⟨[], e, Or.inl rfl, he, e1, e2⟩
  | cons c r1 =>
    simp only at h
    by_cases hc : c = '.'
    · rw [if_pos hc] at h
      by_cases hd : (takeDigits r1).1 = []
      · rw [if_pos hd] at h
        exact absurd h (by simp)
      · rw [if_neg hd] at h
        obtain ⟨e, he, e1, e2⟩ := scanExp_sound _ _ _ _ h
        refine ⟨'.' :: (takeDigits r1).1, e,
          Or.inr ⟨_, ⟨hd, (takeDigits_spec r1).2⟩, rfl⟩, he, ?_, ?_⟩
        · rw [e1]
          simp
        · rw [hc]
          conv_lhs => rw [(takeDigits_spec r1).1, e2]
          simp
    · rw [if_neg hc] at h
      obtain ⟨e, he, e1, e2⟩ := scanExp_sound _ _ _ _ h
      exact ⟨[], e, Or.inl rfl, he, e1, e2⟩

theorem scanInt_sound (lit r l rest : Str) (h : scanInt lit r = some (l, rest)) :
    ∃ i f e, IsInt i ∧ IsOptFrac f ∧ IsOptExp e ∧ l = lit ++ (i ++ (f ++ e)) ∧
      r = i ++ (f ++ (e ++ rest)) := by
  unfold scanInt at h
  cases r with
  | nil => exact absurd h (by simp)
  | cons c r1 =>
    simp only at h
    by_cases hc : c = '0'
    · rw [if_pos hc] at h
      obtain ⟨f, e, hf, he, e1, e2⟩ := scanFrac_sound _ _ _ _ h
      refine ⟨['0'], f, e, Or.inl rfl, hf, he, ?_, ?_⟩
      · rw [e1, hc]
        simp
      · rw [e2, hc]
        rfl
    · rw [if_neg hc] at h
      by_cases hd : isDigit c = true
      · rw [if_pos hd] at h
        obtain ⟨f, e, hf, he, e1, e2⟩ := scanFrac_sound _ _ _ _ h
        refine ⟨c :: (takeDigits r1).1, f, e,
          Or.inr ⟨c, _, rfl, hd, hc, (takeDigits_spec r1).2⟩, hf, he, ?_, ?_⟩
        · rw [e1]
          simp
        · conv_lhs => rw [(takeDigits_spec r1).1, e2]
          simp
      · rw [if_neg hd] at h
        exact absurd h (by simp)

theorem scanNumber_sound (s l rest : Str) (h : scanNumber s = some (l, rest)) :
    IsNumber l ∧ s = l ++ rest := by
  unfold scanNumber at h
  cases s with
  | nil => exact absurd h (by simp)
  | cons c r =>
    simp only at h
    by_cases hc : c = '-'
    · rw [if_pos hc] at h
      obtain ⟨i, f, e, hi, hf, he, e1, e2⟩ := scanInt_sound _ _ _ _ h
      refine ⟨⟨['-'], i, f, e, Or.inr rfl, hi, hf, he, e1⟩, ?_⟩
      rw [e1, e2, hc]
      simp
    · rw [if_neg hc] at h
      obtain ⟨i, f, e, hi, hf, he, e1, e2⟩ := scanInt_sound _ _ _ _ h
      refine ⟨⟨[], i, f, e, Or.inl rfl, hi, hf, he, e1⟩, ?_⟩
      rw [e1, e2]
      simp

theorem isDigit_ne (c x : Char) (hc : isDigit c = true) (hx : isDigit x = false) : c ≠ x := by
  intro e
  rw [e, hx] at hc
  exact Bool.noConfusion hc

theorem digitsEnd_of_numEnd (rest : Str) (h : NumEnd rest) : DigitsEnd rest :=
  fun c r e => (h c r e).1

theorem digitsEnd_optExp (e rest : Str) (he : IsOptExp e) (hr : NumEnd rest) :
    DigitsEnd (e ++ rest) := by
  rcases he with rfl | ⟨ch, sg, ds, hch, _, _, rfl⟩
  · exact digitsEnd_of_numEnd rest hr
  · intro c r hcr
    simp only [List.cons_append, List.cons.injEq] at hcr
    rw [← hcr.1]
    rcases hch with rfl | rfl <;> decide

theorem scanExp_complete (lit e rest : Str) (he : IsOptExp e) (hr : NumEnd rest) :
    scanExp lit (e ++ rest) = some (lit ++ e, rest) := by
  rcases he with rfl | ⟨ch, sg, ds, hch, hsg, hds, rfl⟩
  · cases rest with
    | nil => simp [scanExp]
    | cons c r =>
      obtain ⟨_, _, h2, h3⟩ := hr c r rfl
      simp [scanExp, h2, h3]
  · obtain ⟨d0, ds0, rfl⟩ : ∃ d0 ds0, ds = d0 :: ds0 := by
      cases ds with
      | nil => exact absurd rfl hds.1
      | cons d0 ds0 => exact ⟨d0, ds0, rfl⟩
    have hd0 : isDigit d0 = true := hds.2 d0 (List.mem_cons_self _ _)
    have htd : takeDigits (d0 :: ds0 ++ rest) = (d0 :: ds0, rest) :=
      takeDigits_append (d0 :: ds0) rest hds.2 (digitsEnd_of_numEnd rest hr)
    have hplus : d0 ≠ '+' := isDigit_ne d0 '+' hd0 (by decide)
    have hminus : d0 ≠ '-' := isDigit_ne d0 '-' hd0 (by decide)
    rcases hsg with rfl | rfl | rfl
    · simp only [List.nil_append, List.cons_append, scanExp, hch, if_true, false_or, hplus,
        hminus, or_self, if_false, scanExpDigits]
      rw [show d0 :: (ds0 ++ rest) = d0 :: ds0 ++ rest from rfl, htd]
      simp
    · simp only [List.cons_append, List.nil_append, scanExp, hch, if_true, true_or,
        scanExpDigits]
      rw [show d0 :: (ds0 ++ rest) = d0 :: ds0 ++ rest from rfl, htd]
      simp
    · simp only [List.cons_append, List.nil_append, scanExp, hch, if_true, or_true,
        scanExpDigits]
      rw [show d0 :: (ds0 ++ rest) = d0 :: ds0 ++ rest from rfl, htd]
      simp

theorem scanFrac_complete (lit f e rest : Str) (hf : IsOptFrac f) (he : IsOptExp e)
    (hr : NumEnd rest) : scanFrac lit (f ++ (e ++ rest)) = some (lit ++ (f ++ e), rest) := by
  rcases hf with rfl | ⟨ds, hds, rfl⟩
  · have key := scanExp_complete lit e rest he hr
    simp only [List.nil_append]
    cases hx : e ++ rest with
    | nil =>
      rw [hx] at key
      simpa [scanFrac] using key
    | cons c r1 =>
      rw [hx] at key
      have hc : c ≠ '.' := by
        rcases he with rfl | ⟨ch, sg, ds, hch, _, _, rfl⟩
        · exact (hr c r1 hx).2.1
        · simp only [List.cons_append, List.cons.injEq] at hx
          rw [← hx.1]
          rcases hch with rfl | rfl <;> decide
      simp only [scanFrac, hc, if_false]
      exact key
  · have htd : takeDigits (ds ++ (e ++ rest)) = (ds, e ++ rest) :=
      takeDigits_append ds (e ++ rest) hds.2 (digitsEnd_optExp e rest he hr)
    simp only [List.cons_append, scanFrac, if_true, htd, hds.1, if_false]
    rw [scanExp_complete _ e rest he hr]
    simp

theorem digitsEnd_frac (f e rest : Str) (hf : IsOptFrac f) (he : IsOptExp e)
    (hr : NumEnd rest) : DigitsEnd (f ++ (e ++ rest)) := by
  rcases hf with rfl | ⟨ds, _, rfl⟩
  · exact digitsEnd_optExp e rest he hr
  · intro c r hcr
    simp only [List.cons_append, List.cons.injEq] at hcr
    rw [← hcr.1]
    decide

theorem scanInt_complete (lit i f e rest : Str) (hi : IsInt i) (hf : IsOptFrac f)
    (he : IsOptExp e) (hr : NumEnd rest) :
    scanInt lit (i ++ (f ++ (e ++ rest))) = some (lit ++ (i ++ (f ++ e)), rest) := by
  rcases hi with rfl | ⟨c, ds, rfl, hc, hc0, hds⟩
  · simp only [List.cons_append, List.nil_append, scanInt, if_true]
    rw [scanFrac_complete _ f e rest hf he hr]
    simp
  · have htd : takeDigits (ds ++ (f ++ (e ++ rest))) = (ds, f ++ (e ++ rest)) :=
      takeDigits_append ds _ hds (digitsEnd_frac f e rest hf he hr)
    simp only [List.cons_append, scanInt, hc0, if_false, hc, if_true, htd]
    rw [scanFrac_complete _ f e rest hf he hr]
    simp

theorem isInt_head (i : Str) (hi : IsInt i) :
    ∃ c r, i = c :: r ∧ isDigit c = true := by
  rcases hi with rfl | ⟨c, ds, rfl, hc, _, _⟩
  · exact ⟨'0', [], rfl, by decide⟩
  · exact ⟨c, ds, rfl, hc⟩

theorem scanNumber_complete (t rest : Str) (ht : IsNumber t) (hr : NumEnd rest) :
    scanNumber (t ++ rest) = some (t, rest) := by
  obtain ⟨m, i, f, e, hm, hi, hf, he, rfl⟩ := ht
  rcases hm with rfl | rfl
  · obtain ⟨c, r, rfl, hc⟩ := isInt_head i hi
    have hne : c ≠ '-' := isDigit_ne c '-' hc (by decide)
    have := scanInt_complete [] (c :: r) f e rest hi hf he hr
    simp only [List.nil_append, List.cons_append, List.append_assoc, scanNumber, hne,
      if_false] at this ⊢
    exact this
  · have := scanInt_complete ['-'] i f e rest hi hf he hr
    simp only [List.cons_append, List.nil_append, List.append_assoc, scanNumber,
      if_true] at this ⊢
    exact this

theorem isNumber_head (t : Str) (ht : IsNumber t) :
    ∃ c r, t = c :: r ∧ (c = '-' ∨ isDigit c = true) := by
  obtain ⟨m, i, f, e, hm, hi, _, _, rfl⟩ := ht
  obtain ⟨c, r, rfl, hc⟩ := isInt_head i hi
  rcases hm with rfl | rfl
  · exact ⟨c, r ++ (f ++ e), rfl, Or.inr hc⟩
  · exact ⟨'-', c :: r ++ (f ++ e), rfl, Or.inl rfl⟩

theorem scanString_complete (body rest : Str) (hb : IsChars body) :
    scanString (body ++ '"' :: rest) = some (body, rest) := by
  induction hb with
  | nil =>
    show scanString ('"' :: rest) = _
    unfold scanString
    rw [if_pos rfl]
  | unescaped c r h1 h2 h3 _ ih =>
    have h4 : ¬ c.toNat < 0x20 := by omega
    show scanString (c :: (r ++ '"' :: rest)) = _
    unfold scanString
    rw [if_neg h1, if_neg h2, if_neg h4, ih]
    rfl
  | escape e r he _ ih =>
    have hu : e ≠ 'u' := by
      intro h
      rw [h] at he
      exact absurd he (by decide)
    show scanString ('\\' :: e :: (r ++ '"' :: rest)) = _
    unfold scanString
    rw [if_neg (by decide), if_pos rfl]
    simp only
    rw [if_neg hu, if_pos he, ih]
    rfl
  | unicode h1 h2 h3 h4 r e1 e2 e3 e4 _ ih =>
    show scanString ('\\' :: 'u' :: h1 :: h2 :: h3 :: h4 :: (r ++ '"' :: rest)) = _
    unfold scanString
    rw [if_neg (by decide), if_pos rfl]
    simp only [e1, e2, e3, e4, Bool.and_self, if_true]
    rw [ih]
    rfl

theorem scanString_sound (n : Nat) (s body rest : Str) (hn : s.length ≤ n)
    (h : scanString s = some (body, rest)) : IsChars body ∧ s = body ++ '"' :: rest := by
  induction n generalizing s body rest with
  | zero =>
    have : s = [] := List.length_eq_zero.mp (Nat.le_zero.mp hn)
    subst this
    exact absurd h (by simp [scanString])
  | succ n ih =>
    cases s with
    | nil => exact absurd h (by simp [scanString])
    | cons c r =>
      simp only [List.length_cons] at hn
      unfold scanString at h
      by_cases hq : c = '"'
      · rw [if_pos hq] at h
        simp only [Option.some.injEq, Prod.mk.injEq] at h
        rw [← h.1, ← h.2, hq]
        exact ⟨IsChars.nil, rfl⟩
      · rw [if_neg hq] at h
        by_cases hb : c = '\\'
        · rw [if_pos hb] at h
          cases r with
          | nil => exact absurd h (by simp)
          | cons e r1 =>
            simp only [List.length_cons] at hn
            simp only at h
            by_cases hu : e = 'u'
            · rw [if_pos hu] at h
              match r1, h, hn with
              | h1 :: h2 :: h3 :: h4 :: r2, h, hn =>
                simp only [List.length_cons] at hn
                simp only at h
                by_cases hx : (isHex h1 && isHex h2 && isHex h3 && isHex h4) = true
                · rw [if_pos hx] at h
                  cases hs : scanString r2 with
                  | none =>
                    rw [hs] at h
                    exact absurd h (by simp)
                  | some p =>
                    rw [hs] at h
                    simp only [Option.map_some', Option.some.injEq, Prod.mk.injEq] at h
                    obtain ⟨hi1, hi2⟩ := ih r2 p.1 p.2 (by omega) hs
                    simp only [Bool.and_eq_true] at hx
                    rw [← h.1, ← h.2, hb, hu]
                    refine ⟨IsChars.unicode h1 h2 h3 h4 p.1 hx.1.1.1 hx.1.1.2 hx.1.2 hx.2 hi1,
                      ?_⟩
                    conv_lhs => rw [hi2]
                    rfl
                · rw [if_neg hx] at h
                  exact absurd h (by simp)
              | [], h, _ => exact absurd h (by simp)
              | [_], h, _ => exact absurd h (by simp)
              | [_, _], h, _ => exact absurd h (by simp)
              | [_, _, _], h, _ => exact absurd h (by simp)
            · rw [if_neg hu] at h
              by_cases he : isSimpleEscape e = true
              · rw [if_pos he] at h
                cases hs : scanString r1 with
                | none =>
                  rw [hs] at h
                  exact absurd h (by simp)
                | some p =>
                  rw [hs] at h
                  simp only [Option.map_some', Option.some.injEq, Prod.mk.injEq] at h
                  obtain ⟨hi1, hi2⟩ := ih r1 p.1 p.2 (by omega) hs
                  rw [← h.1, ← h.2, hb]
                  refine ⟨IsChars.escape e p.1 he hi1, ?_⟩
                  conv_lhs => rw [hi2]
                  rfl
              · rw [if_neg he] at h
                exact absurd h (by simp)
        · rw [if_neg hb] at h
          by_cases hc : c.toNat < 0x20
          · rw [if_pos hc] at h
            exact absurd h (by simp)
          · rw [if_neg hc] at h
            cases hs : scanString r with
            | none =>
              rw [hs] at h
              exact absurd h (by simp)
            | some p =>
              rw [hs] at h
              simp only [Option.map_some', Option.some.injEq, Prod.mk.injEq] at h
              obtain ⟨hi1, hi2⟩ := ih r p.1 p.2 (by omega) hs
              rw [← h.1, ← h.2]
              refine ⟨IsChars.unescaped c p.1 hq hb (by omega) hi1, ?_⟩
              conv_lhs => rw [hi2]
              rfl

theorem expectLit_sound (l r r1 : Str) (h : expectLit l r = some r1) : r = l ++ r1 := by
  induction l generalizing r with
  | nil =>
    simp only [expectLit, Option.some.injEq] at h
    rw [h]
    rfl
  | cons x xs ih =>
    cases r with
    | nil => exact absurd h (by simp [expectLit])
    | cons c r =>
      unfold expectLit at h
      by_cases hc : c = x
      · rw [if_pos hc] at h
        rw [hc, ih r h]
        rfl
      · rw [if_neg hc] at h
        exact absurd h (by simp)

theorem expectLit_complete (l r1 : Str) : expectLit l (l ++ r1) = some r1 := by
  induction l with
  | nil => cases r1 <;> rfl
  | cons x xs ih =>
    show expectLit (x :: xs) (x :: (xs ++ r1)) = _
    unfold expectLit
    rw [if_pos rfl, ih]

theorem parse_sound (fuel : Nat) :
    (∀ depth s v rest, parseValue fuel depth s = some (v, rest) →
      ∃ t, s = t ++ rest ∧ Syn Kind.value depth t) ∧
    (∀ depth s vs rest, parseElements fuel depth s = some (vs, rest) →
      ∃ e w, IsWs w ∧ s = e ++ (w ++ ']' :: rest) ∧ Syn Kind.elements depth e) ∧
    (∀ depth s ms rest, parseMembers fuel depth s = some (ms, rest) →
      ∃ m w, IsWs w ∧ s = m ++ (w ++ '\x7d' :: rest) ∧ Syn Kind.members depth m) := by
  induction fuel with
  | zero =>
    refine ⟨?_, ?_, ?_⟩ <;> intro depth s x rest h
    · exact absurd h (by simp [parseValue])
    · exact absurd h (by simp [parseElements])
    · exact absurd h (by simp [parseMembers])
  | succ fuel ih =>
    obtain ⟨ihV, ihE, ihM⟩ := ih
    refine ⟨?_, ?_, ?_⟩
    · intro depth s v rest h
      cases s with
      | nil => exact absurd h (by simp [parseValue])
      | cons c r =>
        unfold parseValue at h
        obtain ⟨w, hw, hr⟩ := skipSpace_spec r
        by_cases h1 : c = '\x7b'
        · rw [if_pos h1] at h
          by_cases hd : depth = 0
          · rw [if_pos hd] at h
            exact absurd h (by simp)
          · rw [if_neg hd] at h
            obtain ⟨d, rfl⟩ : ∃ d, depth = d + 1 := ⟨depth - 1, by omega⟩
            cases hs : skipSpace r with
            | nil =>
              rw [hs] at h
              exact absurd h (by simp)
            | cons c1 r1 =>
              rw [hs] at h hr
              simp only at h
              by_cases h2 : c1 = '\x7d'
              · rw [if_pos h2] at h
                simp only [Option.some.injEq, Prod.mk.injEq] at h
                refine ⟨'\x7b' :: (w ++ ['\x7d']), ?_, Syn.emptyObject d w hw⟩
                rw [h1, hr, h2, ← h.2]
                simp
              · rw [if_neg h2] at h
                cases hm : parseMembers fuel (d + 1 - 1) (c1 :: r1) with
                | none =>
                  rw [hm] at h
                  exact absurd h (by simp)
                | some p =>
                  rw [hm] at h
                  simp only [Option.map_some', Option.some.injEq, Prod.mk.injEq] at h
                  obtain ⟨m, w2, hw2, em, hsyn⟩ := ihM _ _ p.1 p.2 hm
                  refine ⟨'\x7b' :: (w ++ (m ++ (w2 ++ ['\x7d']))), ?_,
                    Syn.object d w m w2 hw hsyn hw2⟩
                  rw [h1, hr, em, ← h.2]
                  simp
        · rw [if_neg h1] at h
          by_cases h3 : c = '['
          · rw [if_pos h3] at h
            by_cases hd : depth = 0
            · rw [if_pos hd] at h
              exact absurd h (by simp)
            · rw [if_neg hd] at h
              obtain ⟨d, rfl⟩ : ∃ d, depth = d + 1 := ⟨depth - 1, by omega⟩
              cases hs : skipSpace r with
              | nil =>
                rw [hs] at h
                exact absurd h (by simp)
              | cons c1 r1 =>
                rw [hs] at h hr
                simp only at h
                by_cases h2 : c1 = ']'
                · rw [if_pos h2] at h
                  simp only [Option.some.injEq, Prod.mk.injEq] at h
                  refine ⟨'[' :: (w ++ [']']), ?_, Syn.emptyArray d w hw⟩
                  rw [h3, hr, h2, ← h.2]
                  simp
                · rw [if_neg h2] at h
                  cases hm : parseElements fuel (d + 1 - 1) (c1 :: r1) with
                  | none =>
                    rw [hm] at h
                    exact absurd h (by simp)
                  | some p =>
                    rw [hm] at h
                    simp only [Option.map_some', Option.some.injEq, Prod.mk.injEq] at h
                    obtain ⟨e, w2, hw2, em, hsyn⟩ := ihE _ _ p.1 p.2 hm
                    refine ⟨'[' :: (w ++ (e ++ (w2 ++ [']']))), ?_,
                      Syn.array d w e w2 hw hsyn hw2⟩
                    rw [h3, hr, em, ← h.2]
                    simp
          · rw [if_neg h3] at h
            by_cases h4 : c = '"'
            · rw [if_pos h4] at h
              cases hm : scanString r with
              | none =>
                rw [hm] at h
                exact absurd h (by simp)
              | some p =>
                rw [hm] at h
                simp only [Option.map_some', Option.some.injEq, Prod.mk.injEq] at h
                obtain ⟨hb, eb⟩ := scanString_sound r.length r p.1 p.2 (le_refl _) hm
                refine ⟨'"' :: (p.1 ++ ['"']), ?_, Syn.string depth _ ⟨p.1, hb, rfl⟩⟩
                rw [h4, eb, ← h.2]
                simp
            · rw [if_neg h4] at h
              by_cases h5 : c = 't'
              · rw [if_pos h5] at h
                cases hm : expectLit "rue".toList r with
                | none =>
                  rw [hm] at h
                  exact absurd h (by simp)
                | some r1 =>
                  rw [hm] at h
                  simp only [Option.map_some', Option.some.injEq, Prod.mk.injEq] at h
                  refine ⟨"true".toList, ?_, Syn.litTrue depth⟩
                  rw [h5, expectLit_sound _ _ _ hm, ← h.2]
                  rfl
              · rw [if_neg h5] at h
                by_cases h6 : c = 'f'
                · rw [if_pos h6] at h
                  cases hm : expectLit "alse".toList r with
                  | none =>
                    rw [hm] at h
                    exact absurd h (by simp)
                  | some r1 =>
                    rw [hm] at h
                    simp only [Option.map_some', Option.some.injEq, Prod.mk.injEq] at h
                    refine ⟨"false".toList, ?_, Syn.litFalse depth⟩
                    rw [h6, expectLit_sound _ _ _ hm, ← h.2]
                    rfl
                · rw [if_neg h6] at h
                  by_cases h7 : c = 'n'
                  · rw [if_pos h7] at h
                    cases hm : expectLit "ull".toList r with
                    | none =>
                      rw [hm] at h
                      exact absurd h (by simp)
                    | some r1 =>
                      rw [hm] at h
                      simp only [Option.map_some', Option.some.injEq, Prod.mk.injEq] at h
                      refine ⟨"null".toList, ?_, Syn.litNull depth⟩
                      rw [h7, expectLit_sound _ _ _ hm, ← h.2]
                      rfl
                  · rw [if_neg h7] at h
                    cases hm : scanNumber (c :: r) with
                    | none =>
                      rw [hm] at h
                      exact absurd h (by simp)
                    | some p =>
                      rw [hm] at h
                      simp only [Option.map_some', Option.some.injEq, Prod.mk.injEq] at h
                      obtain ⟨hn, en⟩ := scanNumber_sound _ p.1 p.2 hm
                      exact ⟨p.1, by rw [en, ← h.2], Syn.number depth _ hn⟩
    · intro depth s vs rest h
      unfold parseElements at h
      cases hv : parseValue fuel depth s with
      | none =>
        rw [hv] at h
        exact absurd h (by simp)
      | some p =>
        obtain ⟨v, r⟩ := p
        rw [hv] at h
        simp only at h
        obtain ⟨t, et, hsyn⟩ := ihV _ _ _ _ hv
        obtain ⟨w, hw, hr⟩ := skipSpace_spec r
        cases hs : skipSpace r with
        | nil =>
          rw [hs] at h
          exact absurd h (by simp)
        | cons c1 r1 =>
          rw [hs] at h hr
          simp only at h
          by_cases h1 : c1 = ','
          · rw [if_pos h1] at h
            cases hm : parseElements fuel depth (skipSpace r1) with
            | none =>
              rw [hm] at h
              exact absurd h (by simp)
            | some q =>
              rw [hm] at h
              simp only [Option.map_some', Option.some.injEq, Prod.mk.injEq] at h
              obtain ⟨e2, w3, hw3, ee, hsyn2⟩ := ihE _ _ _ _ hm
              obtain ⟨w2, hw2, hr1⟩ := skipSpace_spec r1
              refine ⟨t ++ (w ++ ',' :: (w2 ++ e2)), w3, hw3, ?_,
                Syn.elements depth t w w2 e2 hsyn hw hw2 hsyn2⟩
              rw [et, hr, h1, hr1, ee, ← h.2]
              simp
          · rw [if_neg h1] at h
            by_cases h2 : c1 = ']'
            · rw [if_pos h2] at h
              simp only [Option.some.injEq, Prod.mk.injEq] at h
              refine ⟨t, w, hw, ?_, Syn.element depth t hsyn⟩
              rw [et, hr, h2, ← h.2]
            · rw [if_neg h2] at h
              exact absurd h (by simp)
    · intro depth s ms rest h
      cases s with
      | nil => exact absurd h (by simp [parseMembers])
      | cons c r =>
        unfold parseMembers at h
        by_cases h0 : c = '"'
        · rw [if_pos h0] at h
          cases hk : scanString r with
          | none =>
            rw [hk] at h
            exact absurd h (by simp)
          | some pk =>
            obtain ⟨k, r1⟩ := pk
            rw [hk] at h
            simp only at h
            obtain ⟨hb, eb⟩ := scanString_sound r.length r k r1 (le_refl _) hk
            obtain ⟨w1, hw1, hr1⟩ := skipSpace_spec r1
            cases hs1 : skipSpace r1 with
            | nil =>
              rw [hs1] at h
              exact absurd h (by simp)
            | cons c2 r2 =>
              rw [hs1] at h hr1
              simp only at h
              by_cases h2 : c2 = ':'
              · rw [if_pos h2] at h
                obtain ⟨w2, hw2, hr2⟩ := skipSpace_spec r2
                cases hv : parseValue fuel depth (skipSpace r2) with
                | none =>
                  rw [hv] at h
                  exact absurd h (by simp)
                | some pv =>
                  obtain ⟨v, r3⟩ := pv
                  rw [hv] at h
                  simp only at h
                  obtain ⟨t, et, hsyn⟩ := ihV _ _ _ _ hv
                  obtain ⟨w3, hw3, hr3⟩ := skipSpace_spec r3
                  cases hs3 : skipSpace r3 with
                  | nil =>
                    rw [hs3] at h
                    exact absurd h (by simp)
                  | cons c4 r4 =>
                    rw [hs3] at h hr3
                    simp only at h
                    have hstr : IsString ('"' :: (k ++ ['"'])) := ⟨k, hb, rfl⟩
                    by_cases h4 : c4 = ','
                    · rw [if_pos h4] at h
                      cases hm : parseMembers fuel depth (skipSpace r4) with
                      | none =>
                        rw [hm] at h
                        exact absurd h (by simp)
                      | some q =>
                        rw [hm] at h
                        simp only [Option.map_some', Option.some.injEq, Prod.mk.injEq] at h
                        obtain ⟨m2, w5, hw5, em, hsyn2⟩ := ihM _ _ _ _ hm
                        obtain ⟨w4, hw4, hr4⟩ := skipSpace_spec r4
                        refine ⟨_, w5, hw5, ?_,
                          Syn.members depth _ w1 w2 t w3 w4 m2 hstr hw1 hw2 hsyn hw3 hw4 hsyn2⟩
                        rw [h0, eb, hr1, h2, hr2, et, hr3, h4, hr4, em, ← h.2]
                        simp
                    · rw [if_neg h4] at h
                      by_cases h5 : c4 = '\x7d'
                      · rw [if_pos h5] at h
                        simp only [Option.some.injEq, Prod.mk.injEq] at h
                        refine ⟨_, w3, hw3, ?_, Syn.member depth _ w1 w2 t hstr hw1 hw2 hsyn⟩
                        rw [h0, eb, hr1, h2, hr2, et, hr3, h5, ← h.2]
                        simp
                      · rw [if_neg h5] at h
                        exact absurd h (by simp)
              · rw [if_neg h2] at h
                exact absurd h (by simp)
        · rw [if_neg h0] at h
          exact absurd h (by simp)

theorem isSpace_cases (c : Char) (h : isSpace c = true) :
    c = ' ' ∨ c = '\t' ∨ c = '\r' ∨ c = '\n' := by
  simp only [isSpace, Bool.or_eq_true, decide_eq_true_eq] at h
  tauto

theorem numEnd_of_space (c : Char) (h : isSpace c = true) :
    isDigit c = false ∧ c ≠ '.' ∧ c ≠ 'e' ∧ c ≠ 'E' := by
  rcases isSpace_cases c h with rfl | rfl | rfl | rfl <;> decide

theorem numEnd_ws_cons (w : Str) (c : Char) (rest : Str) (hw : IsWs w)
    (hc : isDigit c = false ∧ c ≠ '.' ∧ c ≠ 'e' ∧ c ≠ 'E') : NumEnd (w ++ c :: rest) := by
  intro x r hx
  cases w with
  | nil =>
    simp only [List.nil_append, List.cons.injEq] at hx
    rw [← hx.1]
    exact hc
  | cons y ys =>
    simp only [List.cons_append, List.cons.injEq] at hx
    rw [← hx.1]
    exact numEnd_of_space y (hw y (List.mem_cons_self _ _))

theorem numEnd_ws (w : Str) (hw : IsWs w) : NumEnd w := by
  intro x r hx
  rw [hx] at hw
  exact numEnd_of_space x (hw x (List.mem_cons_self _ _))

theorem skipSpace_ws_cons (w : Str) (c : Char) (r : Str) (hw : IsWs w)
    (hc : isSpace c = false) : skipSpace (w ++ c :: r) = c :: r := by
  rw [skipSpace_ws w _ hw, skipSpace_cons_of_not_space c r hc]

/-- The first character of a text of the grammar: never white space, never a closing
bracket or brace, and a quotation mark for members. -/
theorem syn_head (k : Kind) (d : Nat) (t : Str) (h : Syn k d t) :
    ∃ c r, t = c :: r ∧ isSpace c = false ∧ c ≠ ']' ∧ c ≠ '\x7d' ∧
      (k = Kind.members → c = '"') := by
  induction h with
  | litNull d => exact ⟨'n', _, rfl, by decide, by decide, by decide, fun h => nomatch h⟩
  | litTrue d => exact ⟨'t', _, rfl, by decide, by decide, by decide, fun h => nomatch h⟩
  | litFalse d => exact ⟨'f', _, rfl, by decide, by decide, by decide, fun h => nomatch h⟩
  | number d t hn =>
    obtain ⟨c, r, rfl, hc⟩ := isNumber_head t hn
    refine ⟨c, r, rfl, ?_, ?_, ?_, fun h => nomatch h⟩
    · rcases hc with rfl | hc
      · decide
      · cases hs : isSpace c with
        | false => rfl
        | true => exact absurd hc (by rw [(numEnd_of_space c hs).1]; simp)
    · rcases hc with rfl | hc
      · decide
      · exact isDigit_ne c ']' hc (by decide)
    · rcases hc with rfl | hc
      · decide
      · exact isDigit_ne c '\x7d' hc (by decide)
  | string d t hs =>
    obtain ⟨body, _, rfl⟩ := hs
    exact ⟨'"', _, rfl, by decide, by decide, by decide, fun h => nomatch h⟩
  | emptyArray d w _ => exact ⟨'[', _, rfl, by decide, by decide, by decide, fun h => nomatch h⟩
  | array d w1 e w2 _ _ _ _ =>
    exact ⟨'[', _, rfl, by decide, by decide, by decide, fun h => nomatch h⟩
  | emptyObject d w _ =>
    exact ⟨'\x7b', _, rfl, by decide, by decide, by decide, fun h => nomatch h⟩
  | object d w1 m w2 _ _ _ _ =>
    exact ⟨'\x7b', _, rfl, by decide, by decide, by decide, fun h => nomatch h⟩
  | element d t _ ih =>
    obtain ⟨c, r, rfl, h1, h2, h3, _⟩ := ih
    exact ⟨c, r, rfl, h1, h2, h3, fun h => nomatch h⟩
  | elements d t w1 w2 e _ _ _ _ ih _ =>
    obtain ⟨c, r, rfl, h1, h2, h3, _⟩ := ih
    exact ⟨c, _, rfl, h1, h2, h3, fun h => nomatch h⟩
  | member d k w1 w2 t hk _ _ _ _ =>
    obtain ⟨body, _, rfl⟩ := hk
    exact ⟨'"', _, rfl, by decide, by decide, by decide, fun _ => rfl⟩
  | members d k w1 w2 t w3 w4 m hk _ _ _ _ _ _ _ _ =>
    obtain ⟨body, _, rfl⟩ := hk
    exact ⟨'"', _, rfl, by decide, by decide, by decide, fun _ => rfl⟩

theorem fuel_succ (t : Str) (fuel : Nat) (c : Char) (r : Str) (ht : t = c :: r)
    (hf : t.length ≤ fuel) : ∃ f, fuel = f + 1 ∧ r.length ≤ f := by
  subst ht
  simp only [List.length_cons] at hf
  exact ⟨fuel - 1, by omega, by omega⟩

theorem parse_complete (k : Kind) (d : Nat) (t : Str) (h : Syn k d t) : Accepts k d t := by
  induction h with
  | litNull d =>
    intro fuel depth rest hf hd hr
    obtain ⟨f, rfl, _⟩ := fuel_succ _ fuel 'n' "ull".toList rfl hf
    refine ⟨JValue.null, ?_⟩
    show parseValue (f + 1) depth ('n' :: ("ull".toList ++ rest)) = _
    unfold parseValue
    rw [if_neg (by decide), if_neg (by decide), if_neg (by decide), if_neg (by decide),
      if_neg (by decide), if_pos rfl, expectLit_complete]
    rfl
  | litTrue d =>
    intro fuel depth rest hf hd hr
    obtain ⟨f, rfl, _⟩ := fuel_succ _ fuel 't' "rue".toList rfl hf
    refine ⟨JValue.bool true, ?_⟩
    show parseValue (f + 1) depth ('t' :: ("rue".toList ++ rest)) = _
    unfold parseValue
    rw [if_neg (by decide), if_neg (by decide), if_neg (by decide), if_pos rfl,
      expectLit_complete]
    rfl
  | litFalse d =>
    intro fuel depth rest hf hd hr
    obtain ⟨f, rfl, _⟩ := fuel_succ _ fuel 'f' "alse".toList rfl hf
    refine ⟨JValue.bool false, ?_⟩
    show parseValue (f + 1) depth ('f' :: ("alse".toList ++ rest)) = _
    unfold parseValue
    rw [if_neg (by decide), if_neg (by decide), if_neg (by decide), if_neg (by decide),
      if_pos rfl, expectLit_complete]
    rfl
  | number d t hn =>
    intro fuel depth rest hf hd hr
    obtain ⟨c, r, rfl, hc⟩ := isNumber_head t hn
    obtain ⟨f, rfl, _⟩ := fuel_succ _ fuel c r rfl hf
    refine ⟨JValue.number (c :: r), ?_⟩
    have hne : ∀ x, isDigit x = false → x ≠ '-' → c ≠ x := by
      intro x hx hx2
      rcases hc with rfl | hc
      · exact fun e => hx2 e.symm
      · exact isDigit_ne c x hc hx
    show parseValue (f + 1) depth (c :: (r ++ rest)) = _
    unfold parseValue
    rw [if_neg (hne _ (by decide) (by decide)), if_neg (hne _ (by decide) (by decide)),
      if_neg (hne _ (by decide) (by decide)), if_neg (hne _ (by decide) (by decide)),
      if_neg (hne _ (by decide) (by decide)), if_neg (hne _ (by decide) (by decide))]
    have := scanNumber_complete (c :: r) rest hn hr
    rw [List.cons_append] at this
    rw [this]
    rfl
  | string d t hs =>
    intro fuel depth rest hf hd hr
    obtain ⟨body, hb, rfl⟩ := hs
    obtain ⟨f, rfl, _⟩ := fuel_succ _ fuel '"' _ rfl hf
    refine ⟨JValue.string (unquote body), ?_⟩
    show parseValue (f + 1) depth ('"' :: ((body ++ ['"']) ++ rest)) = _
    unfold parseValue
    rw [if_neg (by decide), if_neg (by decide), if_pos rfl,
      show (body ++ ['"']) ++ rest = body ++ '"' :: rest by simp,
      scanString_complete body rest hb]
    rfl
  | emptyArray d w hw =>
    intro fuel depth rest hf hd hr
    obtain ⟨f, rfl, _⟩ := fuel_succ _ fuel '[' _ rfl hf
    refine ⟨JValue.array [], ?_⟩
    show parseValue (f + 1) depth ('[' :: ((w ++ [']']) ++ rest)) = _
    unfold parseValue
    rw [if_neg (by decide), if_pos rfl, if_neg (by omega),
      show (w ++ [']']) ++ rest = w ++ ']' :: rest by simp,
      skipSpace_ws_cons w ']' rest hw (by decide)]
    simp only [if_true]
  | emptyObject d w hw =>
    intro fuel depth rest hf hd hr
    obtain ⟨f, rfl, _⟩ := fuel_succ _ fuel '\x7b' _ rfl hf
    refine ⟨JValue.object [], ?_⟩
    show parseValue (f + 1) depth ('\x7b' :: ((w ++ ['\x7d']) ++ rest)) = _
    unfold parseValue
    rw [if_pos rfl, if_neg (by omega),
      show (w ++ ['\x7d']) ++ rest = w ++ '\x7d' :: rest by simp,
      skipSpace_ws_cons w '\x7d' rest hw (by decide)]
    simp only [if_true]
  | array d w1 e w2 hw1 he hw2 ih =>
    intro fuel depth rest hf hd hr
    obtain ⟨f, rfl, hf2⟩ := fuel_succ _ fuel '[' _ rfl hf
    obtain ⟨c, r, rfl, hc1, hc2, _, _⟩ := syn_head _ _ _ he
    have hlen : (c :: r).length + 1 ≤ f := by
      simp only [List.length_append, List.length_cons, List.length_nil] at hf2 ⊢
      omega
    obtain ⟨vs, hvs⟩ := ih f (depth - 1) w2 rest hlen (by omega) hw2
    refine ⟨JValue.array vs, ?_⟩
    show parseValue (f + 1) depth ('[' :: ((w1 ++ (c :: r ++ (w2 ++ [']']))) ++ rest)) = _
    unfold parseValue
    rw [if_neg (by decide), if_pos rfl, if_neg (by omega),
      show (w1 ++ (c :: r ++ (w2 ++ [']']))) ++ rest = w1 ++ c :: (r ++ (w2 ++ ']' :: rest))
        by simp,
      skipSpace_ws_cons w1 c _ hw1 hc1]
    simp only [hc2, if_false]
    rw [show c :: (r ++ (w2 ++ ']' :: rest)) = c :: r ++ (w2 ++ ']' :: rest) by simp, hvs]
    rfl
  | object d w1 m w2 hw1 hm hw2 ih =>
    intro fuel depth rest hf hd hr
    obtain ⟨f, rfl, hf2⟩ := fuel_succ _ fuel '\x7b' _ rfl hf
    obtain ⟨c, r, rfl, hc1, _, hc3, _⟩ := syn_head _ _ _ hm
    have hlen : (c :: r).length + 1 ≤ f := by
      simp only [List.length_append, List.length_cons, List.length_nil] at hf2 ⊢
      omega
    obtain ⟨ms, hms⟩ := ih f (depth - 1) w2 rest hlen (by omega) hw2
    refine ⟨JValue.object ms, ?_⟩
    show parseValue (f + 1) depth
      ('\x7b' :: ((w1 ++ (c :: r ++ (w2 ++ ['\x7d']))) ++ rest)) = _
    unfold parseValue
    rw [if_pos rfl, if_neg (by omega),
      show (w1 ++ (c :: r ++ (w2 ++ ['\x7d']))) ++ rest =
        w1 ++ c :: (r ++ (w2 ++ '\x7d' :: rest)) by simp,
      skipSpace_ws_cons w1 c _ hw1 hc1]
    simp only [hc3, if_false]
    rw [show c :: (r ++ (w2 ++ '\x7d' :: rest)) = c :: r ++ (w2 ++ '\x7d' :: rest) by simp,
      hms]
    rfl
  | element d t ht ih =>
    intro fuel depth w rest hf hd hw
    obtain ⟨f, rfl⟩ : ∃ f, fuel = f + 1 := ⟨fuel - 1, by omega⟩
    obtain ⟨v, hv⟩ := ih f depth (w ++ ']' :: rest) (by omega) hd
      (numEnd_ws_cons w ']' rest hw (by decide))
    refine ⟨[v], ?_⟩
    unfold parseElements
    rw [hv]
    simp only
    rw [skipSpace_ws_cons w ']' rest hw (by decide)]
    simp only [if_neg (show ¬ (']' = ',') by decide), if_true]
  | elements d t w1 w2 e ht hw1 hw2 he iht ihe =>
    intro fuel depth w rest hf hd hw
    obtain ⟨f, rfl⟩ : ∃ f, fuel = f + 1 := ⟨fuel - 1, by omega⟩
    obtain ⟨c, r, rfl, hc1, _, _, _⟩ := syn_head _ _ _ he
    obtain ⟨ct, rt, rfl, _, _, _, _⟩ := syn_head _ _ _ ht
    simp only [List.length_append, List.length_cons] at hf
    obtain ⟨v, hv⟩ := iht f depth (w1 ++ ',' :: (w2 ++ (c :: r ++ (w ++ ']' :: rest))))
      (by simp only [List.length_cons]; omega) hd (numEnd_ws_cons w1 ',' _ hw1 (by decide))
    obtain ⟨vs, hvs⟩ := ihe f depth w rest (by simp only [List.length_cons]; omega) hd hw
    refine ⟨v :: vs, ?_⟩
    rw [show (ct :: rt ++ (w1 ++ ',' :: (w2 ++ c :: r))) ++ (w ++ ']' :: rest) =
      ct :: rt ++ (w1 ++ ',' :: (w2 ++ (c :: r ++ (w ++ ']' :: rest)))) by simp]
    unfold parseElements
    rw [hv]
    simp only
    rw [skipSpace_ws_cons w1 ',' _ hw1 (by decide)]
    simp only [if_true]
    rw [show w2 ++ (c :: r ++ (w ++ ']' :: rest)) = w2 ++ c :: (r ++ (w ++ ']' :: rest))
      by simp, skipSpace_ws_cons w2 c _ hw2 hc1,
      show c :: (r ++ (w ++ ']' :: rest)) = c :: r ++ (w ++ ']' :: rest) by simp, hvs]
    rfl
  | member d k w1 w2 t hk hw1 hw2 ht ih =>
    intro fuel depth w rest hf hd hw
    obtain ⟨f, rfl⟩ : ∃ f, fuel = f + 1 := ⟨fuel - 1, by omega⟩
    obtain ⟨body, hb, rfl⟩ := hk
    obtain ⟨ct, rt, rfl, hc1, _, _, _⟩ := syn_head _ _ _ ht
    simp only [List.length_append, List.length_cons, List.length_nil] at hf
    obtain ⟨v, hv⟩ := ih f depth (w ++ '\x7d' :: rest)
      (by simp only [List.length_cons]; omega) hd
      (numEnd_ws_cons w '\x7d' rest hw (by decide))
    refine ⟨[(unquote body, v)], ?_⟩
    rw [show ('"' :: (body ++ ['"']) ++ (w1 ++ ':' :: (w2 ++ ct :: rt))) ++
        (w ++ '\x7d' :: rest) =
      '"' :: (body ++ '"' :: (w1 ++ ':' :: (w2 ++ ct :: (rt ++ (w ++ '\x7d' :: rest)))))
      by simp]
    unfold parseMembers
    rw [if_pos rfl, scanString_complete body _ hb]
    simp only
    rw [skipSpace_ws_cons w1 ':' _ hw1 (by decide)]
    simp only [if_true]
    rw [skipSpace_ws_cons w2 ct _ hw2 hc1,
      show ct :: (rt ++ (w ++ '\x7d' :: rest)) = ct :: rt ++ (w ++ '\x7d' :: rest) by simp,
      hv]
    simp only
    rw [skipSpace_ws_cons w '\x7d' rest hw (by decide)]
    simp only [if_neg (show ¬ ('\x7d' = ',') by decide), if_true]
  | members d k w1 w2 t w3 w4 m hk hw1 hw2 ht hw3 hw4 hm iht ihm =>
    intro fuel depth w rest hf hd hw
    obtain ⟨f, rfl⟩ : ∃ f, fuel = f + 1 := ⟨fuel - 1, by omega⟩
    obtain ⟨body, hb, rfl⟩ := hk
    obtain ⟨ct, rt, rfl, hc1, _, _, _⟩ := syn_head _ _ _ ht
    obtain ⟨cm, rm, rfl, hm1, _, _, _⟩ := syn_head _ _ _ hm
    simp only [List.length_append, List.length_cons, List.length_nil] at hf
    obtain ⟨v, hv⟩ := iht f depth (w3 ++ ',' :: (w4 ++ (cm :: rm ++ (w ++ '\x7d' :: rest))))
      (by simp only [List.length_cons]; omega) hd
      (numEnd_ws_cons w3 ',' _ hw3 (by decide))
    obtain ⟨ms, hms⟩ := ihm f depth w rest (by simp only [List.length_cons]; omega) hd hw
    refine ⟨(unquote body, v) :: ms, ?_⟩
    rw [show ('"' :: (body ++ ['"']) ++
          (w1 ++ ':' :: (w2 ++ (ct :: rt ++ (w3 ++ ',' :: (w4 ++ cm :: rm)))))) ++
        (w ++ '\x7d' :: rest) =
      '"' :: (body ++ '"' :: (w1 ++ ':' :: (w2 ++ ct :: (rt ++
        (w3 ++ ',' :: (w4 ++ (cm :: rm ++ (w ++ '\x7d' :: rest))))))))
      by simp]
    unfold parseMembers
    rw [if_pos rfl, scanString_complete body _ hb]
    simp only
    rw [skipSpace_ws_cons w1 ':' _ hw1 (by decide)]
    simp only [if_true]
    rw [skipSpace_ws_cons w2 ct _ hw2 hc1,
      show ct :: (rt ++ (w3 ++ ',' :: (w4 ++ (cm :: rm ++ (w ++ '\x7d' :: rest))))) =
        ct :: rt ++ (w3 ++ ',' :: (w4 ++ (cm :: rm ++ (w ++ '\x7d' :: rest)))) by simp,
      hv]
    simp only
    rw [skipSpace_ws_cons w3 ',' _ hw3 (by decide)]
    simp only [if_true]
    rw [show w4 ++ (cm :: rm ++ (w ++ '\x7d' :: rest)) =
        w4 ++ cm :: (rm ++ (w ++ '\x7d' :: rest)) by simp,
      skipSpace_ws_cons w4 cm _ hw4 hm1,
      show cm :: (rm ++ (w ++ '\x7d' :: rest)) = cm :: rm ++ (w ++ '\x7d' :: rest) by simp,
      hms]
    rfl

theorem skipSpace_all_ws (w : Str) (hw : IsWs w) : skipSpace w = [] := by
  have := skipSpace_ws w [] hw
  rwa [List.append_nil] at this

theorem isWs_of_skipSpace_nil (r : Str) (h : skipSpace r = []) : IsWs r := by
  obtain ⟨w, hw, e⟩ := skipSpace_spec r
  rw [h, List.append_nil] at e
  rw [e]
  exact hw

theorem isItJSON_sound (s : Str) (h : isItJSON s = true) : IsJSONText maxNestingDepth s := by
  unfold isItJSON parseJSON at h
  cases hp : parseValue (s.length + 1) maxNestingDepth (skipSpace s) with
  | none =>
    rw [hp] at h
    exact absurd h (by simp)
  | some p =>
    obtain ⟨v, r⟩ := p
    rw [hp] at h
    simp only at h
    by_cases hr : skipSpace r = []
    · obtain ⟨t, et, hsyn⟩ := (parse_sound (s.length + 1)).1 _ _ _ _ hp
      obtain ⟨w1, hw1, e1⟩ := skipSpace_spec s
      exact ⟨w1, t, r, hw1, hsyn, isWs_of_skipSpace_nil r hr, by rw [← et]; exact e1⟩
    · rw [if_neg hr] at h
      exact absurd h (by simp)

theorem isItJSON_complete (s : Str) (h : IsJSONText maxNestingDepth s) :
    isItJSON s = true := by
  obtain ⟨w1, t, w2, hw1, hsyn, hw2, rfl⟩ := h
  obtain ⟨c, r, rfl, hc, _, _, _⟩ := syn_head _ _ _ hsyn
  obtain ⟨v, hv⟩ := parse_complete _ _ _ hsyn ((w1 ++ (c :: r ++ w2)).length + 1)
    maxNestingDepth w2 (by simp only [List.length_append, List.length_cons]; omega)
    (le_refl _) (numEnd_ws w2 hw2)
  unfold isItJSON parseJSON
  rw [show w1 ++ (c :: r ++ w2) = w1 ++ c :: (r ++ w2) by simp,
    skipSpace_ws_cons w1 c _ hw1 hc,
    show c :: (r ++ w2) = c :: r ++ w2 by simp, hv]
  simp only [skipSpace_all_ws w2 hw2, if_true, Option.isSome_some]

theorem syn_nestedArrays (n : Nat) : Syn Kind.value (n + 1) (nestedArrays (n + 1)) := by
  induction n with
  | zero => exact Syn.emptyArray 0 [] (fun c hc => absurd hc (List.not_mem_nil c))
  | succ n ih =>
    have e : nestedArrays (n + 1 + 1) = '[' :: ([] ++ (nestedArrays (n + 1) ++ ([] ++ [']']))) := by
      unfold nestedArrays
      rw [List.replicate_succ, List.replicate_succ' (n + 1) ']']
      simp
    rw [e]
    exact Syn.array (n + 1) [] _ [] (fun c hc => absurd hc (List.not_mem_nil c))
      (Syn.element _ _ ih) (fun c hc => absurd hc (List.not_mem_nil c))

theorem parseValue_too_deep (n : Nat) :
    ∀ fuel depth rest, depth < n →
      parseValue fuel depth (List.replicate n '[' ++ rest) = none := by
  induction n with
  | zero =>
    intro fuel depth rest h
    exact absurd h (Nat.not_lt_zero _)
  | succ n ih =>
    intro fuel depth rest h
    cases fuel with
    | zero => simp [parseValue]
    | succ f =>
      rw [List.replicate_succ, List.cons_append]
      unfold parseValue
      rw [if_neg (by decide), if_pos rfl]
      by_cases hd : depth = 0
      · rw [if_pos hd]
      · rw [if_neg hd]
        obtain ⟨m, rfl⟩ : ∃ m, n = m + 1 := ⟨n - 1, by omega⟩
        rw [List.replicate_succ, List.cons_append,
          skipSpace_cons_of_not_space '[' _ (by decide)]
        simp only [if_neg (show ¬ ('[' = ']') by decide)]
        cases f with
        | zero => simp [parseElements]
        | succ f2 =>
          unfold parseElements
          have := ih f2 (depth - 1) rest (by omega)
          rw [List.replicate_succ, List.cons_append] at this
          rw [this]
          rfl

theorem isItJSON_nestedArrays (n : Nat) (h : maxNestingDepth < n) :
    isItJSON (nestedArrays n) = false := by
  obtain ⟨m, rfl⟩ : ∃ m, n = m + 1 := ⟨n - 1, by omega⟩
  unfold isItJSON parseJSON
  have e : skipSpace (nestedArrays (m + 1)) = nestedArrays (m + 1) := by
    unfold nestedArrays
    rw [List.replicate_succ, List.cons_append]
    exact skipSpace_cons_of_not_space '[' _ (by decide)
  rw [e]
  unfold nestedArrays
  rw [parseValue_too_deep (m + 1) _ maxNestingDepth _ h]
  rfl

/-- C5, as amended: isItJSON returns true exactly for the texts of the JSON grammar
whose arrays and objects are nested at most 10000 deep, and false for every other
string; `testString` is rejected and `{"mySecret": "myPassword"}` is accepted. -/
theorem isItJSON_iff_grammar :
    (∀ s, isItJSON s = true ↔ IsJSONText maxNestingDepth s) ∧
      isItJSON "testString".toList = false ∧ isItJSON mySecretText = true :=
  ⟨fun s => ⟨isItJSON_sound s, isItJSON_complete s⟩, by decide, by decide⟩

/-- C5, as stated, fails: 10001 opening and 10001 closing brackets are a syntactically
valid JSON text, and isItJSON rejects it. -/
theorem isItJSON_rejects_deep_nesting :
    ValidJSON (nestedArrays 10001) ∧ isItJSON (nestedArrays 10001) = false :=
  ⟨⟨10001, [], nestedArrays 10001, [], fun c hc => absurd hc (List.not_mem_nil c),
      syn_nestedArrays 10000, fun c hc => absurd hc (List.not_mem_nil c), by simp⟩,
    isItJSON_nestedArrays 10001 (by decide)⟩

/-! ## further facts about the loop over the secrets -/

/-- A value that is not valid JSON takes the scalar branch: one entry, keyed by the name
of the secret, holding the value unchanged. -/
theorem secretsBody_scalar (rt : Runtime) (remote : Remote) (st : ResultMap × Str)
    (s : SMSecrets) (text : Str) (hval : remote.GetSecretValue s.Name = Except.ok text)
    (hj : isItJSON text = false) :
    (secretsBody rt remote st s).1 = mapSet st.1 (deriveKey rt.upperCase s.Name) text := by
  have hd : decryptSecret remote s.Name = (text, []) := by
    unfold decryptSecret
    rw [hval]
  unfold secretsBody
  simp only [hd, hj, Bool.false_eq_true, if_false]

/-- A value that is valid JSON with a root other than an object takes the structured
branch and writes nothing. -/
theorem secretsBody_not_object (rt : Runtime) (remote : Remote) (st : ResultMap × Str)
    (s : SMSecrets) (text : Str) (v : JValue)
    (hrange : ∀ l, (rt.rangeFields l).Perm l)
    (hval : remote.GetSecretValue s.Name = Except.ok text)
    (hparse : parseJSON text = some v) (hv : ∀ members, v ≠ JValue.object members) :
    (secretsBody rt remote st s).1 = st.1 := by
  have hd : decryptSecret remote s.Name = (text, []) := by
    unfold decryptSecret
    rw [hval]
  have hj : isItJSON text = true := by
    unfold isItJSON
    rw [hparse]
    rfl
  have hu : (Unmarshal rt text).1 = [] := by
    unfold Unmarshal
    rw [hparse]
    cases v with
    | object members => exact absurd rfl (hv members)
    | null => rfl
    | bool b => rfl
    | number lit => rfl
    | string x => rfl
    | array elems => rfl
  have hnil : rt.rangeFields [] = [] := List.Perm.eq_nil (hrange [])
  unfold secretsBody
  simp only [hd, hj, if_true, hu, hnil, List.foldl_nil]

/-- The keys of the map main builds are pairwise distinct. -/
theorem collect_keys_nodup (rt : Runtime) (remote : Remote) (flags : Flags) :
    ((collect rt remote flags).1.map Prod.fst).Nodup := by
  unfold collect
  rw [parametersBlock_fst]
  refine foldl_invariant _ (fun m : ResultMap => (m.map Prod.fst).Nodup) _ _ ?_
    (fun m p _ hm => nodup_keys_mapSet m _ _ hm)
  rw [secretsBlock_fst]
  refine foldl_invariant (secretsBody rt remote)
    (fun st : ResultMap × Str => (st.1.map Prod.fst).Nodup) _ _ List.nodup_nil ?_
  intro st s _ hst
  unfold secretsBody
  by_cases hj : isItJSON (decryptSecret remote s.Name).1 = true
  · simp only [hj, if_true]
    exact foldl_invariant _ (fun m : ResultMap => (m.map Prod.fst).Nodup) _ _ hst
      (fun m kv _ hm => nodup_keys_mapSet m _ _ hm)
  · simp only [hj, Bool.false_eq_true, if_false]
    exact nodup_keys_mapSet st.1 _ _ hst

end Awsenvsec
